import Mathlib

/-!
Verification of the Meeting Buddy Pro orchestration-and-reconciliation core.

JavaScript strings are embedded as `List Char` (`Str`).  The SQLite tables
are embedded as lists of row structures and every storage operation from
`backend/storage.js` becomes a pure function on a `DB` value.  The
diarization runner (`backend/diarization.js`) and the job handler
(`handleDiarization` in the backend server) are embedded as pure functions
over explicit inputs (spawn outcome, captured streams, directory contents);
JSON parsing of a stdout line is abstracted as a `parse` parameter since the
scan-and-fallback logic under verification never inspects the parser itself.
-/

namespace MeetingBuddy

abbrev Str := List Char

def toStr (s : String) : Str := s.data

/-- JS whitespace class (the ASCII part of `\s`): space, tab, LF, CR, VT, FF. -/
def isJsWs (c : Char) : Bool :=
  c = ' ' ∨ c = '\t' ∨ c = '\n' ∨ c = '\r' ∨ c = '\x0b' ∨ c = '\x0c'

/-- JS `String.prototype.trim` start half. -/
def trimStart (s : Str) : Str := s.dropWhile isJsWs

/-- JS `String.prototype.trim` end half. -/
def trimEnd (s : Str) : Str := (s.reverse.dropWhile isJsWs).reverse

/-- JS `String.prototype.trim`. -/
def jsTrim (s : Str) : Str := trimEnd (trimStart s)

/-- Regex `/^\s*/` match: the leading whitespace run. -/
def leadingWs (s : Str) : Str := s.takeWhile isJsWs

/-- Regex `/\s*$/` match: the trailing whitespace run. -/
def trailingWs (s : Str) : Str := (s.reverse.takeWhile isJsWs).reverse

/-- JS `String.prototype.split(/\r?\n/)`: cut at every LF, consuming one
directly preceding CR with it. -/
def splitRN : Str → List Str
  | [] => [[]]
  | '\r' :: '\n' :: rest => [] :: splitRN rest
  | '\n' :: rest => [] :: splitRN rest
  | c :: rest =>
    match splitRN rest with
    | [] => [[c]]
    | h :: t => (c :: h) :: t

/-- JS `Array.prototype.join(sep)`. -/
def joinSep (sep : Str) : List Str → Str
  | [] => []
  | [p] => p
  | p :: rest => p ++ sep ++ joinSep sep rest

/-- Whether `pat` occurs as a contiguous substring (JS `String.prototype.includes`). -/
def containsSub (s pat : Str) : Bool := s.tails.any (fun t => pat.isPrefixOf t)

/-- Whether `s` ends with `pat` (JS `String.prototype.endsWith`). -/
def endsWithStr (s pat : Str) : Bool := pat.reverse.isPrefixOf s.reverse

def natStr (n : Nat) : Str := (toString n).data

def intStr (n : Int) : Str := (toString n).data

/-- The template `Speaker ${n}`. -/
def speakerLabelAt (n : Nat) : Str := toStr "Speaker " ++ natStr n

/-- JS-Map-backed association list: `Map.prototype.set` overwrites the value of
an existing key in place and otherwise appends, preserving insertion order. -/
def mapSet (m : List (Str × Str)) (k v : Str) : List (Str × Str) :=
  if m.any (fun e => e.1 = k) then
    m.map (fun e => if e.1 = k then (k, v) else e)
  else m ++ [(k, v)]

/-- JS `Map.prototype.get` (`none` for a missing key). -/
def mapGet (m : List (Str × Str)) (k : Str) : Option Str :=
  (m.find? (fun e => e.1 = k)).map (·.2)

/-! ## Storage layer (`backend/storage.js`)

Each SQLite table is a list of rows; prepared statements become list
transformations.  Row ids are supplied by an explicit `uuid : Nat → Str`
source standing for `randomUUID()`. -/

structure MeetingRow where
  id : Str
  name : Str
  status : Str
  created_at : Str
  started_at : Option Str
  ended_at : Option Str
  audio_file_path : Option Str
deriving DecidableEq

structure SpeakerRow where
  id : Str
  meeting_id : Str
  label : Str
  display_name : Str
  created_at : Str
deriving DecidableEq

structure SegmentRow where
  id : Str
  meeting_id : Str
  speaker_id : Option Str
  start_ms : Int
  end_ms : Int
  transcript : Str
  created_at : Str
deriving DecidableEq

structure DB where
  meetings : List MeetingRow
  speakers : List SpeakerRow
  segments : List SegmentRow
deriving DecidableEq

/-- A speaker entry passed to `resetSpeakers` (an element of an explicit
speaker list); `label`/`displayName` are absent when the JS field is
`undefined`/`null` (the code reads them with `??`). -/
structure SpeakerInput where
  label : Option Str
  displayName : Option Str
deriving DecidableEq

/-- The `speakersOrCount` argument of `resetSpeakersInternal`: either an array
of entries, or a count whose `Number(...)` conversion is either a finite
number (modelled integral) or not finite (`NaN`/`±Infinity`), encoded `none`. -/
inductive SpeakersArg where
  | list (items : List SpeakerInput)
  | count (n : Option Int)
deriving DecidableEq

/-- storage.js `resetSpeakersInternal` (lines 93-110): delete the meeting's
speakers, then insert either one row per entry (falling back to a single
default entry for an empty list) or `safeCount` default rows where a
non-finite or non-positive count falls back to 2. -/
def resetSpeakersInternal (uuid : Nat → Str) (meetingId : Str) (arg : SpeakersArg)
    (now : Str) (db : DB) : DB :=
  let db0 : DB := { db with speakers := db.speakers.filter (fun r => r.meeting_id ≠ meetingId) }
  match arg with
  | .list items =>
    let items := if items.length ≠ 0 then items else [⟨some (toStr "Speaker 1"), none⟩]
    { db0 with speakers := db0.speakers ++ items.enum.map (fun e =>
        let label := e.2.label.getD (speakerLabelAt (e.1 + 1))
        let displayName := e.2.displayName.getD label
        ⟨uuid e.1, meetingId, label, displayName, now⟩) }
  | .count n =>
    let count : Int := n.getD 0
    let safeCount : Int := if count > 0 then count else 2
    { db0 with speakers := db0.speakers ++ (List.range safeCount.toNat).map (fun i =>
        ⟨uuid i, meetingId, speakerLabelAt (i + 1), speakerLabelAt (i + 1), now⟩) }

/-- storage.js `resetSpeakers` (lines 112-119): the transactional wrapper. -/
def resetSpeakers (uuid : Nat → Str) (meetingId : Str) (arg : SpeakersArg)
    (now : Str) (db : DB) : DB :=
  resetSpeakersInternal uuid meetingId arg now db

/-- storage.js `createMeeting` (lines 121-133): insert a `pending` meeting row
and seed its speakers from the given count. -/
def createMeeting (uuid : Nat → Str) (meetingId : Str) (name : Str)
    (speakerCount : Option Int) (now : Str) (db : DB) : DB :=
  let db1 : DB := { db with meetings := db.meetings ++
      [⟨meetingId, name, toStr "pending", now, none, none, none⟩] }
  resetSpeakersInternal uuid meetingId (.count speakerCount) now db1

/-- storage.js `endMeeting` (lines 149-155):
`SET ended_at = COALESCE(ended_at, ?), audio_file_path = COALESCE(?, audio_file_path),
status = 'processing'`. -/
def endMeeting (meetingId : Str) (audioFilePath : Option Str) (now : Str) (db : DB) : DB :=
  { db with meetings := db.meetings.map (fun m =>
      if m.id = meetingId then
        { m with
          ended_at := match m.ended_at with
            | some e => some e
            | none => some now
          audio_file_path := match audioFilePath with
            | some a => some a
            | none => m.audio_file_path
          status := toStr "processing" }
      else m) }

/-- storage.js `updateMeetingStatus` (lines 157-160). -/
def updateMeetingStatus (meetingId status : Str) (db : DB) : DB :=
  { db with meetings := db.meetings.map (fun m =>
      if m.id = meetingId then { m with status := status } else m) }

/-- storage.js `renameSpeaker` (lines 162-167):
`UPDATE speakers SET display_name = ? WHERE id = ? AND meeting_id = ?`. -/
def renameSpeaker (meetingId speakerId displayName : Str) (db : DB) : DB :=
  { db with speakers := db.speakers.map (fun r =>
      if r.id = speakerId ∧ r.meeting_id = meetingId then
        { r with display_name := displayName }
      else r) }

/-- storage.js `getMeeting` row lookup (a `SELECT ... WHERE id = ?`). -/
def getMeetingRow (db : DB) (meetingId : Str) : Option MeetingRow :=
  db.meetings.find? (fun m => m.id = meetingId)

/-- storage.js `attachSpeakers` select (`WHERE meeting_id = ?`). -/
def meetingSpeakers (db : DB) (meetingId : Str) : List SpeakerRow :=
  db.speakers.filter (fun r => r.meeting_id = meetingId)

/-- storage.js `storeSegments` (lines 183-205): delete-then-insert, one row per
normalized segment. -/
def storeSegments (meetingId : Str) (segs : List SegmentRow) (db : DB) : DB :=
  let db0 : DB := { db with segments := db.segments.filter (fun r => r.meeting_id ≠ meetingId) }
  { db0 with segments := db0.segments ++ segs }

/-! ## Diarization runner (`backend/diarization.js`)

`runDiarization` resolves with the captured streams and the output directory
on exit code 0 and rejects otherwise.  The spawn itself is represented by a
`SpawnOutcome`: either an `error` event before close, or a close with an exit
code and the buffered stdout/stderr text. -/

structure RunResult where
  stdout : Str
  stderr : Str
  outputDir : Str
deriving DecidableEq

structure SpawnOutcome where
  spawnError : Option Str
  exitCode : Int
  stdout : Str
  stderr : Str
deriving DecidableEq

def audioNotFoundMsg (audioPath : Str) : Str :=
  toStr "Audio file not found for diarization: " ++ audioPath

/-- The rejection message built on a non-zero exit
(`Diarization process exited with code ${code}.\n${stderr || stdout}`);
`||` falls back to stdout when stderr is the empty string. -/
def processFailureMsg (code : Int) (stdout stderr : Str) : Str :=
  toStr "Diarization process exited with code " ++ intStr code ++ toStr ".\n" ++
    (if stderr = [] then stdout else stderr)

/-- diarization.js `runDiarization` (unnamed/part_000): reject when the audio
file is missing, on a spawn `error` event, or on a non-zero exit code; resolve
with the raw streams and output directory only on exit code 0. -/
def runDiarization (audioPath : Str) (audioExists : Bool) (outputDir : Str)
    (sp : SpawnOutcome) : Except Str RunResult :=
  if ¬ audioExists then .error (audioNotFoundMsg audioPath)
  else match sp.spawnError with
    | some e => .error e
    | none =>
      if sp.exitCode ≠ 0 then
        .error (processFailureMsg sp.exitCode sp.stdout sp.stderr)
      else .ok ⟨sp.stdout, sp.stderr, outputDir⟩

/-! ## Job handler (`handleDiarization` in the backend server)

The structured result record (`payload`).  A JS value that is not an array is
`none` in the `speakers`/`segments` fields; `status` is `none` when absent or
not a string (the handler checks `typeof payload.status === "string"` and
truthiness, so the empty string also falls back to `"done"`). -/

structure PayloadSegment where
  segId : Option Str
  startMs : Option Int
  endMs : Option Int
  startSec : Option Int
  endSec : Option Int
  transcript : Option Str
  text : Option Str
  speakerId : Option Str
  speakerLabel : Option Str
  speaker : Option Str
  createdAt : Option Str
deriving DecidableEq

structure Payload where
  status : Option Str
  speakers : Option (List SpeakerInput)
  segments : Option (List PayloadSegment)
deriving DecidableEq

/-- Outcome of `JSON.parse` on one candidate line: a throw (scan continues),
a successful parse to a falsy value such as `null` (the loop still `break`s,
leaving no usable payload), or a truthy structured record. -/
inductive LineParse where
  | fail
  | nullish
  | ok (p : Payload)
deriving DecidableEq

/-- The stdout line scan of `handleDiarization`: non-empty lines are walked
from the last index down to 0 and the loop `break`s at the first line whose
trimmed text `JSON.parse` accepts (the loop
`for (index = lines.length - 1; index >= 0; ...)`). -/
def scanBack (parse : Str → LineParse) : List Str → Option Payload
  | [] => none
  | l :: rest =>
    match parse (jsTrim l) with
    | .ok p => some p
    | .nullish => none
    | .fail => scanBack parse rest

/-- The non-empty-line list the scan runs over:
`trimmed.split(/\r?\n/).filter((line) => line.trim().length > 0)` applied to
`result.stdout.trim()` (an all-whitespace stdout skips the scan entirely). -/
def nonEmptyLines (stdout : Str) : List Str :=
  let trimmed := jsTrim stdout
  if trimmed = [] then []
  else (splitRN trimmed).filter (fun l => (jsTrim l).length ≠ 0)

/-- The payload extracted from captured stdout (first tier of the resolver). -/
def extractFromStdout (parse : Str → LineParse) (stdout : Str) : Option Payload :=
  scanBack parse (nonEmptyLines stdout).reverse

/-- Contents of `diarization.json` in the job's output directory: absent,
present but not valid JSON (`JSON.parse` throws), present but parsing to a
falsy value (the following `if (!payload)` rejects it), or a truthy parsed
payload. -/
inductive ResultFile where
  | absent
  | unparseable (err : Str)
  | nullish
  | parsed (p : Payload)
deriving DecidableEq

def payloadMissingMsg : Str := toStr "Diarization payload missing"

/-- How a `handleDiarization` run ended: an early return before the `try`
block (audio path missing / audio file gone), a caught job-level error
(status forced to `failed`), or completion with the computed next status. -/
inductive JobOutcome where
  | earlyFailed
  | caught (err : Str)
  | completed (status : Str)
deriving DecidableEq

/-- Milliseconds taken directly when present, else seconds × 1000
(`segment.startMs ?? Math.round((segment.start ?? 0) * 1000)`); the
seconds-based field is modelled integral, keeping the rounding exact. -/
def msOf (direct : Option Int) (sec : Option Int) : Int :=
  match direct with
  | some v => v
  | none => (sec.getD 0) * 1000

/-- Segment normalization inside `handleDiarization` (speaker resolution goes
through the freshly inserted roster's label → id map). -/
def normalizeSegment (uuid : Nat → Str) (labelToId : Str → Option Str) (now : Str)
    (i : Nat) (s : PayloadSegment) : SegmentRow :=
  { id := s.segId.getD (uuid i)
    meeting_id := []
    speaker_id :=
      match s.speakerId with
      | some v => some v
      | none =>
        match s.speakerLabel with
        | some l => labelToId l
        | none => match s.speaker with
          | some l => labelToId l
          | none => none
    start_ms := msOf s.startMs s.startSec
    end_ms := msOf s.endMs s.endSec
    transcript := (s.transcript.getD (s.text.getD []))
    created_at := s.createdAt.getD now }

/-- The roster/segment persistence step of `handleDiarization` (lines
833-852): when the payload carries a non-empty speaker array, reset the
roster from it and, when it also carries a non-empty segment array, replace
the meeting's segments using the fresh label → id lookup. -/
def persistPayload (uuid : Nat → Str) (meetingId : Str) (p : Payload) (now : Str)
    (db : DB) : DB :=
  match p.speakers with
  | some speakers =>
    if speakers.length ≠ 0 then
      let db1 := resetSpeakers uuid meetingId (.list speakers) now db
      let roster := meetingSpeakers db1 meetingId
      let labelToId : Str → Option Str := fun l =>
        (roster.find? (fun r => r.label = l)).map (·.id)
      match p.segments with
      | some segs =>
        if segs.length ≠ 0 then
          let rows := segs.enum.map (fun e =>
            { normalizeSegment uuid labelToId now e.1 e.2 with meeting_id := meetingId })
          storeSegments meetingId rows db1
        else db1
      | none => db1
    else db
  | none => db

/-- The status written on the success path:
`payload.status && typeof payload.status === "string" ? payload.status : "done"`. -/
def nextStatusOf (p : Payload) : Str :=
  match p.status with
  | some s => if s = [] then toStr "done" else s
  | none => toStr "done"

/-- Backend server `handleDiarization` (storage.js concatenation, lines
777-860): validate the audio path, run the job, extract the payload from
stdout with a fallback to the output-directory result file, persist it, and
write the final meeting status — `failed` on every error path. -/
def handleDiarization (uuid : Nat → Str) (meetingId : Str)
    (audioPath : Option Str) (audioExists : Bool)
    (parse : Str → LineParse) (file : ResultFile)
    (sp : SpawnOutcome) (outputDir : Str) (now : Str)
    (db : DB) : DB × JobOutcome :=
  match audioPath with
  | none => (updateMeetingStatus meetingId (toStr "failed") db, .earlyFailed)
  | some ap =>
    if ¬ audioExists then
      (updateMeetingStatus meetingId (toStr "failed") db, .earlyFailed)
    else
      match runDiarization ap audioExists outputDir sp with
      | .error e => (updateMeetingStatus meetingId (toStr "failed") db, .caught e)
      | .ok result =>
        let fromStdout := extractFromStdout parse result.stdout
        match fromStdout with
        | some payload =>
          let db1 := persistPayload uuid meetingId payload now db
          let status := nextStatusOf payload
          (updateMeetingStatus meetingId status db1, .completed status)
        | none =>
          match file with
          | .parsed payload =>
            let db1 := persistPayload uuid meetingId payload now db
            let status := nextStatusOf payload
            (updateMeetingStatus meetingId status db1, .completed status)
          | .unparseable err =>
            (updateMeetingStatus meetingId (toStr "failed") db, .caught err)
          | .nullish =>
            (updateMeetingStatus meetingId (toStr "failed") db, .caught payloadMissingMsg)
          | .absent =>
            (updateMeetingStatus meetingId (toStr "failed") db, .caught payloadMissingMsg)

/-! ## Artifact rewriters (backend server, storage.js concatenation lines 293-492)

`escapeRegExp` is modelled byte-for-byte from the source.  Its character
class is mangled (`/[.*+?^${}()|[\\]\\]/g` closes at the first unescaped
bracket), so the pattern only matches a metacharacter directly followed by
the two characters backslash-bracket; on ordinary labels it escapes
nothing (claim C3).  The rewriting pass itself is modelled as the literal
matcher the regex denotes for labels free of class characters, which is the
domain every other claim is stated on. -/

def regexClassChar (c : Char) : Bool :=
  c = '.' ∨ c = '*' ∨ c = '+' ∨ c = '?' ∨ c = '^' ∨ c = '$' ∨ c = '\x7b' ∨
    c = '\x7d' ∨ c = '(' ∨ c = ')' ∨ c = '|' ∨ c = '[' ∨ c = '\\'

/-- A label whose characters never meet the regex metacharacter class, so
that the (unescaped) pattern treats it literally. -/
def plainLabel (l : Str) : Bool := l.all (fun c => ¬ regexClassChar c)

/-- storage.js concatenation `escapeRegExp` (line 293-295):
`value.replace(/[.*+?^${}()|[\\]\\]/g, "\\$&")`.  The class ends at the `]`
after `\\`, leaving a trailing literal `\]`; the pattern therefore matches a
three-character run `<classChar>\]` and prepends one backslash to it. -/
def escapeRegExp : Str → Str
  | c :: '\\' :: ']' :: rest =>
    if regexClassChar c then '\\' :: c :: '\\' :: ']' :: escapeRegExp rest
    else c :: escapeRegExp ('\\' :: ']' :: rest)
  | c :: rest => c :: escapeRegExp rest
  | [] => []

/-- The lookahead `(?=\s*:)`: optional whitespace then a colon. -/
def wsColon (s : Str) : Bool :=
  match s.dropWhile isJsWs with
  | ':' :: _ => true
  | _ => false

/-- A cue of `label` at the current position: the label as a literal run,
satisfying the lookahead. -/
def cueAt (label : Str) (s : Str) : Bool :=
  label.isPrefixOf s && wsColon (s.drop label.length)

/-- One global replace of `new RegExp('(^|\r?\n)' + label + '(?=\s*:)', 'g')`
by `prefix + displayName` (the replacement is a callback, so `$` sequences in
the display name are inert): replace the label at the start of the text or
right after a line feed when the lookahead holds, re-emitting the consumed
line break, and continue the scan after the label.  This literal-run model
is faithful only for a `plainLabel` (metacharacter-free) label: `escapeRegExp`
escapes nothing (see C3), so a label with a regex metacharacter is
interpreted — or rejected — by `new RegExp`, and theorems built on this
definition carry a `plainLabel` hypothesis on every label of the map.  The
empty label (never produced by the callers, which drop falsy labels) is a
fixpoint here. -/
def replaceLabelPass (label disp : Str) (lineStart : Bool) (s : Str) : Str :=
  if h : label ≠ [] ∧ lineStart = true ∧ cueAt label s = true then
    disp ++ replaceLabelPass label disp false (s.drop label.length)
  else
    match s with
    | [] => []
    | c :: rest => c :: replaceLabelPass label disp (c = '\n') rest
termination_by s.length
decreasing_by
  · have hpre : label <+: s := by
      have hcue := h.2.2
      simp only [cueAt, Bool.and_eq_true, List.isPrefixOf_iff_prefix] at hcue
      exact hcue.1
    have h1 : label.length ≤ s.length := hpre.length_le
    have h2 : 0 < label.length := List.length_pos.mpr h.1
    simp only [List.length_drop]
    omega
  · simp

/-- storage.js concatenation `replaceSpeakerPrefixes` (lines 297-309): apply
one pass per map entry in insertion order, skipping falsy display names and
no-op entries. -/
def replaceSpeakerPrefixes (content : Str) (replacements : List (Str × Str)) : Str :=
  replacements.foldl (fun output e =>
    if e.2 = [] ∨ e.2 = e.1 then output
    else replaceLabelPass e.1 e.2 true output) content

/-- storage.js concatenation `applySpeakerNamesToTextFile` (lines 311-322):
report no change for a missing file, otherwise rewrite and write back only
when the content differs. -/
def applySpeakerNamesToTextFile (file : Option Str) (replacements : List (Str × Str)) :
    Bool × Option Str :=
  match file with
  | none => (false, none)
  | some original =>
    let nextContent := replaceSpeakerPrefixes original replacements
    if nextContent = original then (false, some original)
    else (true, some nextContent)

/-- One CSV row of `applySpeakerNamesToCsv`: the header (index 0), blank rows
and comma-less rows pass through; otherwise the text before the first comma
is trimmed, looked up, and on a hit replaced inside its original whitespace. -/
def csvRewriteRow (replacements : List (Str × Str)) (index : Nat) (row : Str) :
    Bool × Str :=
  if index = 0 ∨ jsTrim row = [] then (false, row)
  else
    match row.findIdx? (fun c => c = ',') with
    | none => (false, row)
    | some commaIndex =>
      let rawSpeaker := row.take commaIndex
      let trimmedSpeaker := jsTrim rawSpeaker
      match mapGet replacements trimmedSpeaker with
      | none => (false, row)
      | some nextName =>
        if nextName = [] ∨ nextName = trimmedSpeaker then (false, row)
        else
          (true, leadingWs rawSpeaker ++ nextName ++ trailingWs rawSpeaker ++
            row.drop commaIndex)

/-- storage.js concatenation `applySpeakerNamesToCsv` (lines 324-363). -/
def applySpeakerNamesToCsv (file : Option Str) (replacements : List (Str × Str)) :
    Bool × Option Str :=
  match file with
  | none => (false, none)
  | some original =>
    let rows := splitRN original
    let newline := if containsSub original (toStr "\r\n") then toStr "\r\n" else toStr "\n"
    let hadTrailingNewline :=
      endsWithStr original (toStr "\r\n") ∨ endsWithStr original (toStr "\n")
    let results := rows.enum.map (fun e => csvRewriteRow replacements e.1 e.2)
    if ¬ results.any (·.1) then (false, some original)
    else
      let joined := joinSep newline (results.map (·.2))
      let nextContent :=
        if hadTrailingNewline ∧ ¬ endsWithStr joined newline then joined ++ newline
        else joined
      (true, some nextContent)

/-! ### Structured JSON rewriter

The parsed shape of `diarization.json` as far as the rewriter reads it.  An
array element that is null or not an object is `none` (skipped); a missing
or non-string field is `none`. -/

structure JSpeaker where
  label : Option Str
  displayName : Option Str
  originalLabel : Option Str
deriving DecidableEq

structure JSegment where
  speakerLabel : Option Str
  speakerDisplayName : Option Str
  originalSpeakerLabel : Option Str
deriving DecidableEq

structure JStats where
  originalLabel : Option Str
deriving DecidableEq

structure JPayload where
  speakers : Option (List (Option JSpeaker))
  segments : Option (List (Option JSegment))
  speakerStats : Option (List (Str × Option JStats))
  updatedSpeakerNamesAt : Option Str
deriving DecidableEq

/-- JS string truthiness: collapse an absent or empty string to `none`. -/
def truthy (o : Option Str) : Option Str :=
  match o with
  | some s => if s = [] then none else some s
  | none => none

/-- JS `a || b` over (possibly absent) strings, normalized to truthy-or-none. -/
def jsOrStr (a b : Option Str) : Option Str :=
  match truthy a with
  | some v => some v
  | none => truthy b

/-- JS object property write `m[k] = v`: overwrite in place when the key
exists, append otherwise (string-keyed JS objects preserve insertion order). -/
def objSet {α : Type} (m : List (Str × α)) (k : Str) (v : α) : List (Str × α) :=
  if m.any (fun e => e.1 = k) then
    m.map (fun e => if e.1 = k then (k, v) else e)
  else m ++ [(k, v)]

/-- The per-speaker body of `applySpeakerNamesToJson` (lines 379-395). -/
def rewriteJSpeaker (replacements : List (Str × Str)) (sp : Option JSpeaker) :
    Bool × Option JSpeaker :=
  match sp with
  | none => (false, none)
  | some speaker =>
    let originalLabel := jsOrStr speaker.originalLabel speaker.label
    let nextName := match originalLabel with
      | some l => truthy (mapGet replacements l)
      | none => none
    let (c1, speaker) :=
      match originalLabel, truthy speaker.originalLabel with
      | some v, none => (true, { speaker with originalLabel := some v })
      | _, _ => (false, speaker)
    let (c2, speaker) :=
      match nextName with
      | some n => if speaker.displayName = some n then (false, speaker)
                  else (true, { speaker with displayName := some n })
      | none => (false, speaker)
    (c1 || c2, some speaker)

/-- The per-segment body of `applySpeakerNamesToJson` (lines 397-419). -/
def rewriteJSegment (replacements : List (Str × Str)) (sg : Option JSegment) :
    Bool × Option JSegment :=
  match sg with
  | none => (false, none)
  | some segment =>
    let originalLabel := jsOrStr segment.originalSpeakerLabel segment.speakerLabel
    let nextName := match originalLabel with
      | some l => truthy (mapGet replacements l)
      | none => none
    let (c1, segment) :=
      match originalLabel, truthy segment.originalSpeakerLabel with
      | some v, none => (true, { segment with originalSpeakerLabel := some v })
      | _, _ => (false, segment)
    let (c2, segment) :=
      match nextName with
      | some n =>
        let (ca, segment) :=
          if segment.speakerLabel = some n then (false, segment)
          else (true, { segment with speakerLabel := some n })
        let (cb, segment) :=
          if segment.speakerDisplayName = some n then (false, segment)
          else (true, { segment with speakerDisplayName := some n })
        (ca || cb, segment)
      | none => (false, segment)
    (c1 || c2, some segment)

/-- One entry of the `speakerStats` loop (lines 421-441): mutate the value's
`originalLabel` when absent, resolve the target key through it, and report
(value mutated, key moved, mutated value, target key). -/
def rewriteStatsEntry (replacements : List (Str × Str)) (key : Str)
    (value : Option JStats) : Bool × Bool × Option JStats × Str :=
  let (c1, value) :=
    match value with
    | some v =>
      match truthy v.originalLabel with
      | none => (true, some { v with originalLabel := some key })
      | some _ => (false, some v)
    | none => (false, none)
  let originalLabel :=
    match value with
    | some v => match truthy v.originalLabel with
      | some l => l
      | none => key
    | none => key
  let nextName := if originalLabel = [] then none else truthy (mapGet replacements originalLabel)
  let targetKey := nextName.getD key
  (c1, targetKey ≠ key, value, targetKey)

/-- The full `speakerStats` loop: returns (any value mutated, any key moved,
entries with mutated values in the original key order, the rebuilt object). -/
def rewriteStats (replacements : List (Str × Str))
    (entries : List (Str × Option JStats)) :
    Bool × Bool × List (Str × Option JStats) × List (Str × Option JStats) :=
  entries.foldl (fun acc e =>
    let r := rewriteStatsEntry replacements e.1 e.2
    (acc.1 || r.1, acc.2.1 || r.2.1,
     acc.2.2.1 ++ [(e.1, r.2.2.1)], objSet acc.2.2.2 r.2.2.2 r.2.2.1))
    (false, false, [], [])

/-- The on-disk `diarization.json`: absent, unreadable as JSON, or parsed.
The file's bytes are represented by the parsed payload (the writer always
re-serializes the payload deterministically, so payload equality is byte
equality). -/
inductive JFile where
  | absent
  | unparseable
  | parsed (p : JPayload)
deriving DecidableEq

/-- storage.js concatenation `applySpeakerNamesToJson` (lines 365-450):
update the three regions, stamp `updatedSpeakerNamesAt` and write only when
something changed; a missing or unparseable file reports no change. -/
def applySpeakerNamesToJson (file : JFile) (replacements : List (Str × Str))
    (now : Str) : Bool × JFile :=
  match file with
  | .absent => (false, .absent)
  | .unparseable => (false, .unparseable)
  | .parsed payload =>
    let (c1, speakers) : Bool × Option (List (Option JSpeaker)) :=
      match payload.speakers with
      | some arr =>
        let rs := arr.map (rewriteJSpeaker replacements)
        (rs.any (fun r => r.1), some (rs.map (fun r => r.2)))
      | none => (false, none)
    let (c2, segments) : Bool × Option (List (Option JSegment)) :=
      match payload.segments with
      | some arr =>
        let rs := arr.map (rewriteJSegment replacements)
        (rs.any (fun r => r.1), some (rs.map (fun r => r.2)))
      | none => (false, none)
    let (c3, statsChanged, speakerStats) : Bool × Bool × Option (List (Str × Option JStats)) :=
      match payload.speakerStats with
      | some entries =>
        let r := rewriteStats replacements entries
        (r.1, r.2.1, some (if r.2.1 then r.2.2.2 else r.2.2.1))
      | none => (false, false, none)
    let changed := c1 || c2 || c3 || statsChanged
    if ¬ changed then (false, .parsed payload)
    else
      (true, .parsed
        { speakers := speakers
          segments := segments
          speakerStats := speakerStats
          updatedSpeakerNamesAt := some now })

/-- The per-meeting export artifacts on disk. -/
structure ExportFiles where
  transcript : Option Str
  srt : Option Str
  csv : Option Str
  json : JFile
deriving DecidableEq

/-- The stable-label → trimmed-display-name map built by
`applySpeakerNamesToExports` (lines 457-465), skipping falsy labels, falsy
trimmed names and no-op entries. -/
def exportReplacements (speakers : List SpeakerRow) : List (Str × Str) :=
  speakers.foldl (fun m sp =>
    let displayName := jsTrim sp.display_name
    if sp.label = [] ∨ displayName = [] ∨ displayName = sp.label then m
    else mapSet m sp.label displayName) []

/-- storage.js concatenation `applySpeakerNamesToExports` (lines 452-492):
run the four rewriters independently and collect the changed file names. -/
def applySpeakerNamesToExports (speakers : List SpeakerRow) (files : ExportFiles)
    (now : Str) : List Str × ExportFiles :=
  if speakers.length = 0 then ([], files)
  else
    let replacements := exportReplacements speakers
    if replacements.length = 0 then ([], files)
    else
      let r1 := applySpeakerNamesToTextFile files.transcript replacements
      let r2 := applySpeakerNamesToTextFile files.srt replacements
      let r3 := applySpeakerNamesToCsv files.csv replacements
      let r4 := applySpeakerNamesToJson files.json replacements now
      let updatedFiles :=
        (if r1.1 then [toStr "transcript.txt"] else []) ++
        (if r2.1 then [toStr "segments.srt"] else []) ++
        (if r3.1 then [toStr "segments.csv"] else []) ++
        (if r4.1 then [toStr "diarization.json"] else [])
      (updatedFiles, ⟨r1.2, r2.2, r3.2, r4.2⟩)

/-! ## Rename-speaker route

The backend registers `PATCH /api/meetings/:meetingId/speakers/:speakerId`
twice.  Express dispatches a request to the first matching registration, so
the earlier handler (lines 560-575, no speaker-existence check) serves every
request and the later duplicate (lines 670-686, with a 404 for an unknown
speaker) is dead code. -/

inductive ApiStatus where
  | ok200
  | err400
  | err404
deriving DecidableEq

/-- The dispatched rename handler (lines 560-575): 404 for an unknown
meeting, 400 for a missing/blank display name, otherwise
`renameSpeaker(meetingId, speakerId, displayName.trim())` and a 200 meeting
payload — with no check that `speakerId` exists. -/
def patchSpeakerRouteA (db : DB) (meetingId speakerId : Str)
    (displayName : Option Str) : ApiStatus × DB :=
  match getMeetingRow db meetingId with
  | none => (.err404, db)
  | some _ =>
    match truthy displayName with
    | none => (.err400, db)
    | some dn =>
      if jsTrim dn = [] then (.err400, db)
      else (.ok200, renameSpeaker meetingId speakerId (jsTrim dn) db)

/-- The shadowed second registration (lines 670-686), kept for reference: it
would 404 when the speaker id is not in the meeting's roster. -/
def patchSpeakerRouteB (db : DB) (meetingId speakerId : Str)
    (displayName : Option Str) : ApiStatus × DB :=
  match truthy displayName with
  | none => (.err400, db)
  | some dn =>
    if jsTrim dn = [] then (.err400, db)
    else
      match getMeetingRow db meetingId with
      | none => (.err404, db)
      | some _ =>
        if (meetingSpeakers db meetingId).any (fun sp => sp.id = speakerId) then
          (.ok200, renameSpeaker meetingId speakerId (jsTrim dn) db)
        else (.err404, db)

/-- Express route dispatch: the first matching registration wins. -/
def patchSpeakerDispatch (db : DB) (meetingId speakerId : Str)
    (displayName : Option Str) : ApiStatus × DB :=
  patchSpeakerRouteA db meetingId speakerId displayName

/-! ## Spec-side vocabulary used by theorem statements. -/

/-- The four lifecycle statuses of the specification's state machine. -/
def lifecycleStatuses : List Str :=
  [toStr "pending", toStr "processing", toStr "done", toStr "failed"]

/-- Whether a cue of `label` (label at text start or right after a line feed,
followed by optional whitespace and a colon) occurs anywhere in `s`, walking
the same positions the rewriting pass scans. -/
def hasCue (label : Str) : Bool → Str → Bool
  | lineStart, [] => lineStart && cueAt label []
  | lineStart, c :: rest => (lineStart && cueAt label (c :: rest)) || hasCue label (c = '\n') rest

/-- No entry of the map has a remaining cue in `s`. -/
def noCueAll (replacements : List (Str × Str)) (s : Str) : Bool :=
  replacements.all (fun e => ! hasCue e.1 true s)

/-- The lifecycle status the store holds for a meeting. -/
def meetingStatus (db : DB) (mid : Str) : Option Str :=
  (getMeetingRow db mid).map (fun m => m.status)

/-- The CRLF newline convention: every line feed in the text directly
follows a carriage return. -/
def crlfOnly : Str → Bool
  | [] => true
  | '\r' :: '\n' :: rest => crlfOnly rest
  | '\n' :: _ => false
  | _ :: rest => crlfOnly rest

/-- Pieces that a LF join maps back to themselves under `splitRN`: no piece
contains a line feed and no piece except the last ends in a carriage return
(which would fuse with the following separator into CRLF). -/
def JoinableLF : List Str → Prop
  | [] => True
  | [p] => '\n' ∉ p
  | p :: rest => '\n' ∉ p ∧ p.getLast? ≠ some '\r' ∧ JoinableLF rest

/-! ## Helper lemmas -/

theorem find?_status_map (l : List MeetingRow) (mid s : Str) :
    (l.map (fun m => if m.id = mid then { m with status := s } else m)).find?
        (fun m => m.id = mid) =
      (l.find? (fun m => m.id = mid)).map (fun m => { m with status := s }) := by
  induction l with
  | nil => simp
  | cons m rest ih =>
    by_cases h : m.id = mid
    · simp [List.find?_cons, h]
    · simp [List.find?_cons, h, ih]

theorem meetingStatus_update (db : DB) (mid s : Str) :
    meetingStatus (updateMeetingStatus mid s db) mid =
      (meetingStatus db mid).map (fun _ => s) := by
  simp only [meetingStatus, getMeetingRow, updateMeetingStatus, find?_status_map]
  cases db.meetings.find? (fun m => m.id = mid) <;> simp

theorem meetingStatus_update_some (db : DB) (mid s : Str)
    (h : getMeetingRow db mid ≠ none) :
    meetingStatus (updateMeetingStatus mid s db) mid = some s := by
  rw [meetingStatus_update]
  simp only [meetingStatus]
  cases hg : getMeetingRow db mid
  · exact absurd hg h
  · simp

theorem renameSpeaker_no_match (db : DB) (mid sid dn : Str)
    (h : ∀ r ∈ db.speakers, ¬ (r.id = sid ∧ r.meeting_id = mid)) :
    renameSpeaker mid sid dn db = db := by
  have hmap : db.speakers.map (fun r =>
      if r.id = sid ∧ r.meeting_id = mid then { r with display_name := dn } else r) =
      db.speakers := by
    rw [show db.speakers = db.speakers.map id by simp]
    rw [List.map_map]
    apply List.map_congr_left
    intro r hr
    simp only [id, Function.comp]
    rw [if_neg (h r (by simpa using hr))]
  simp [renameSpeaker, hmap]

/-! ## Claims -/

/-- C3: the claim requires the plain-text rewriter to treat a label as a
literal string.  The code's `escapeRegExp` was meant to escape regex
metacharacters but its character class is mangled: the pattern
`/[.*+?^${}()|[\\]\\]/g` only matches a metacharacter followed by the two
characters `\]`.  Hence a label such as `Speaker (2)` (or `a.b`) reaches
`new RegExp` unescaped and its metacharacters are interpreted, while the
only shape that is escaped at all is the exotic `<classChar>\]` run. -/
theorem escapeRegExp_does_not_escape :
    escapeRegExp (toStr "Speaker (2)") = toStr "Speaker (2)" ∧
    escapeRegExp (toStr "a.b") = toStr "a.b" ∧
    escapeRegExp (toStr "1 + 1") = toStr "1 + 1" ∧
    escapeRegExp (toStr ".\\]") = toStr "\\.\\]" ∧
    plainLabel (toStr "Speaker (2)") = false := by
  decide

theorem meetingSpeakers_reset_list (uuid : Nat → Str) (mid now : Str) (db : DB)
    (items : List SpeakerInput) :
    meetingSpeakers (resetSpeakers uuid mid (.list items) now db) mid =
      (if items.length ≠ 0 then items else [⟨some (toStr "Speaker 1"), none⟩]).enum.map
        (fun e =>
          ⟨uuid e.1, mid, e.2.label.getD (speakerLabelAt (e.1 + 1)),
            e.2.displayName.getD (e.2.label.getD (speakerLabelAt (e.1 + 1))), now⟩) := by
  simp only [resetSpeakers, resetSpeakersInternal, meetingSpeakers]
  rw [List.filter_append]
  have h1 : (db.speakers.filter (fun r => r.meeting_id ≠ mid)).filter
      (fun r => r.meeting_id = mid) = [] := by
    rw [List.filter_filter]
    apply List.filter_eq_nil_iff.mpr
    intro a _
    simp
  have h2 : ∀ (l : List SpeakerInput),
      (l.enum.map (fun e =>
        (⟨uuid e.1, mid, e.2.label.getD (speakerLabelAt (e.1 + 1)),
          e.2.displayName.getD (e.2.label.getD (speakerLabelAt (e.1 + 1))), now⟩ :
          SpeakerRow))).filter (fun r => r.meeting_id = mid) =
      l.enum.map (fun e =>
        ⟨uuid e.1, mid, e.2.label.getD (speakerLabelAt (e.1 + 1)),
          e.2.displayName.getD (e.2.label.getD (speakerLabelAt (e.1 + 1))), now⟩) := by
    intro l
    apply List.filter_eq_self.mpr
    intro r hr
    obtain ⟨e, _, rfl⟩ := List.mem_map.mp hr
    simp
  rw [h1, h2]
  simp

/-- C7: resetting with an empty list persists exactly one default speaker;
resetting with N entries persists exactly N speakers, one per entry keyed by
its stable label, independently of the entries' display names. -/
theorem resetSpeakers_roster (uuid : Nat → Str) (mid now : Str) (db : DB)
    (items : List SpeakerInput) (hne : items ≠ []) :
    ((meetingSpeakers (resetSpeakers uuid mid (.list []) now db) mid).map
        (fun r => (r.label, r.display_name)) =
      [(toStr "Speaker 1", toStr "Speaker 1")]) ∧
    (meetingSpeakers (resetSpeakers uuid mid (.list items) now db) mid).length =
      items.length ∧
    (meetingSpeakers (resetSpeakers uuid mid (.list items) now db) mid).map
        (fun r => r.label) =
      items.enum.map (fun e => e.2.label.getD (speakerLabelAt (e.1 + 1))) := by
  refine ⟨?_, ?_, ?_⟩
  · rw [meetingSpeakers_reset_list]
    simp
  · rw [meetingSpeakers_reset_list]
    simp [hne]
  · rw [meetingSpeakers_reset_list]
    have : items.length ≠ 0 := (List.length_pos.mpr hne).ne'
    rw [if_pos this, List.map_map]
    rfl

theorem resetSpeakers_roster_w :
    ((meetingSpeakers (resetSpeakers (fun n => natStr n) (toStr "m1") (.list [])
        (toStr "t") ⟨[], [], []⟩) (toStr "m1")).map
        (fun r => (r.label, r.display_name)) =
      [(toStr "Speaker 1", toStr "Speaker 1")]) ∧
    (meetingSpeakers (resetSpeakers (fun n => natStr n) (toStr "m1")
        (.list [⟨some (toStr "A"), some (toStr "Bob")⟩,
                ⟨some (toStr "B"), some (toStr "Bob")⟩])
        (toStr "t") ⟨[], [], []⟩) (toStr "m1")).length = 2 := by
  have h := resetSpeakers_roster (fun n => natStr n) (toStr "m1") (toStr "t")
    ⟨[], [], []⟩
    [⟨some (toStr "A"), some (toStr "Bob")⟩, ⟨some (toStr "B"), some (toStr "Bob")⟩]
    (by decide)
  exact ⟨h.1, h.2.1⟩

theorem meetingSpeakers_reset_count (uuid : Nat → Str) (mid now : Str) (db : DB)
    (n : Option Int) :
    meetingSpeakers (resetSpeakers uuid mid (.count n) now db) mid =
      (List.range (if n.getD 0 > 0 then n.getD 0 else 2).toNat).map
        (fun i => ⟨uuid i, mid, speakerLabelAt (i + 1), speakerLabelAt (i + 1), now⟩) := by
  simp only [resetSpeakers, resetSpeakersInternal, meetingSpeakers]
  rw [List.filter_append]
  have h1 : (db.speakers.filter (fun r => r.meeting_id ≠ mid)).filter
      (fun r => r.meeting_id = mid) = [] := by
    rw [List.filter_filter]
    apply List.filter_eq_nil_iff.mpr
    intro a _
    simp
  have h2 : ((List.range (if n.getD 0 > 0 then n.getD 0 else 2).toNat).map
      (fun i => (⟨uuid i, mid, speakerLabelAt (i + 1), speakerLabelAt (i + 1), now⟩ :
        SpeakerRow))).filter (fun r => r.meeting_id = mid) =
      (List.range (if n.getD 0 > 0 then n.getD 0 else 2).toNat).map
        (fun i => ⟨uuid i, mid, speakerLabelAt (i + 1), speakerLabelAt (i + 1), now⟩) := by
    apply List.filter_eq_self.mpr
    intro r hr
    obtain ⟨e, _, rfl⟩ := List.mem_map.mp hr
    simp
  rw [h1, h2]
  simp

/-- C10: a by-count reset whose count is not a finite positive number (absent
conversion, zero or negative) inserts exactly the two defaults `Speaker 1`
and `Speaker 2`, not the single-speaker fallback of the empty-list path. -/
theorem resetSpeakers_count_fallback (uuid : Nat → Str) (mid now : Str) (db : DB)
    (n : Option Int) (hn : n = none ∨ ∃ k, n = some k ∧ k ≤ 0) :
    (meetingSpeakers (resetSpeakers uuid mid (.count n) now db) mid).map
        (fun r => (r.label, r.display_name)) =
      [(toStr "Speaker 1", toStr "Speaker 1"),
       (toStr "Speaker 2", toStr "Speaker 2")] := by
  rw [meetingSpeakers_reset_count]
  have h2 : (if n.getD 0 > 0 then n.getD 0 else 2).toNat = 2 := by
    rcases hn with h | ⟨k, rfl, hk⟩
    · subst h; decide
    · simp only [Option.getD]
      rw [if_neg (by omega)]
      decide
  rw [h2]
  have hl1 : speakerLabelAt 1 = toStr "Speaker 1" := by decide
  have hl2 : speakerLabelAt 2 = toStr "Speaker 2" := by decide
  simp [List.range_succ, hl1, hl2]

theorem resetSpeakers_count_fallback_w :
    (meetingSpeakers (resetSpeakers (fun n => natStr n) (toStr "m1") (.count (some 0))
        (toStr "t") ⟨[], [], []⟩) (toStr "m1")).map
        (fun r => (r.label, r.display_name)) =
      [(toStr "Speaker 1", toStr "Speaker 1"),
       (toStr "Speaker 2", toStr "Speaker 2")] :=
  resetSpeakers_count_fallback (fun n => natStr n) (toStr "m1") (toStr "t")
    ⟨[], [], []⟩ (some 0) (Or.inr ⟨0, rfl, by omega⟩)

/-- C9: `endMeeting` never overwrites a recorded `ended_at` (COALESCE keeps
the stored value), never clears a stored audio path when none is supplied,
and always sets the status to `processing`; rows of other meetings are
untouched. -/
theorem endMeeting_frame (db : DB) (mid : Str) (audio : Option Str) (now : Str)
    (i : Nat) (m m' : MeetingRow)
    (hm : db.meetings.get? i = some m)
    (hm' : (endMeeting mid audio now db).meetings.get? i = some m') :
    (m.id = mid →
      m'.status = toStr "processing" ∧
      (∀ t, m.ended_at = some t → m'.ended_at = some t) ∧
      (audio = none → m'.audio_file_path = m.audio_file_path)) ∧
    (m.id ≠ mid → m' = m) := by
  simp only [endMeeting] at hm'
  rw [List.get?_map, hm] at hm'
  simp only [Option.map_some', Option.some.injEq] at hm'
  constructor
  · intro hid
    rw [if_pos hid] at hm'
    subst hm'
    refine ⟨rfl, ?_, ?_⟩
    · intro t ht
      simp [ht]
    · intro ha
      subst ha
      simp
  · intro hid
    rw [if_neg hid] at hm'
    exact hm'.symm

theorem endMeeting_frame_w :
    ((endMeeting (toStr "m1") none (toStr "t2")
        ⟨[⟨toStr "m1", toStr "demo", toStr "done", toStr "t", none, some (toStr "t0"),
            some (toStr "a.wav")⟩], [], []⟩).meetings.get? 0).map
        (fun m => (m.status, m.ended_at, m.audio_file_path)) =
      some (toStr "processing", some (toStr "t0"), some (toStr "a.wav")) := by
  have h := endMeeting_frame
    ⟨[⟨toStr "m1", toStr "demo", toStr "done", toStr "t", none, some (toStr "t0"),
        some (toStr "a.wav")⟩], [], []⟩
    (toStr "m1") none (toStr "t2") 0
    ⟨toStr "m1", toStr "demo", toStr "done", toStr "t", none, some (toStr "t0"),
      some (toStr "a.wav")⟩
    ⟨toStr "m1", toStr "demo", toStr "processing", toStr "t", none, some (toStr "t0"),
      some (toStr "a.wav")⟩
    (by decide) (by decide)
  have h1 := h.1 (by decide)
  have hrow : (endMeeting (toStr "m1") none (toStr "t2")
      ⟨[⟨toStr "m1", toStr "demo", toStr "done", toStr "t", none, some (toStr "t0"),
          some (toStr "a.wav")⟩], [], []⟩).meetings.get? 0 =
      some ⟨toStr "m1", toStr "demo", toStr "processing", toStr "t", none,
        some (toStr "t0"), some (toStr "a.wav")⟩ := by decide
  have h2 := h1.2.1 (toStr "t0") (by decide)
  have h3 := h1.2.2 rfl
  rw [hrow]
  exact congrArg some (by
    refine Prod.ext h1.1 (Prod.ext ?_ ?_) <;> simp [h2, h3])

/-- C8: renaming a speaker id that does not belong to the meeting succeeds
with a 200 response and leaves the store untouched — the dispatched route
performs no speaker-existence check and the `UPDATE` matches no row. -/
theorem patchSpeaker_unknown_id (db : DB) (mid sid dn : Str)
    (hm : getMeetingRow db mid ≠ none)
    (hdn : jsTrim dn ≠ [])
    (hs : ∀ r ∈ db.speakers, ¬ (r.id = sid ∧ r.meeting_id = mid)) :
    patchSpeakerDispatch db mid sid (some dn) = (.ok200, db) := by
  have hdn0 : dn ≠ [] := by
    intro h
    exact hdn (by simp [h, jsTrim, trimStart, trimEnd])
  simp only [patchSpeakerDispatch, patchSpeakerRouteA]
  cases hg : getMeetingRow db mid
  · exact absurd hg hm
  · simp only [truthy, if_neg hdn0]
    rw [if_neg (by simpa using hdn)]
    rw [renameSpeaker_no_match db mid sid (jsTrim dn) hs]

theorem patchSpeaker_unknown_id_w :
    patchSpeakerDispatch
      ⟨[⟨toStr "m1", toStr "demo", toStr "pending", toStr "t", none, none, none⟩],
       [⟨toStr "s1", toStr "m1", toStr "Speaker 1", toStr "Speaker 1", toStr "t"⟩], []⟩
      (toStr "m1") (toStr "s2") (some (toStr "Bob")) =
    (.ok200,
      ⟨[⟨toStr "m1", toStr "demo", toStr "pending", toStr "t", none, none, none⟩],
       [⟨toStr "s1", toStr "m1", toStr "Speaker 1", toStr "Speaker 1", toStr "t"⟩], []⟩) :=
  patchSpeaker_unknown_id _ (toStr "m1") (toStr "s2") (toStr "Bob")
    (by decide) (by decide) (by decide)

/-- C5: an analysis process that exits non-zero rejects with the
`ProcessFailure` message carrying the captured error stream (or the output
stream when the error stream is empty), and the job handler then leaves the
meeting `failed`; only exit code 0 resolves, with the raw captured output
and the output directory. -/
theorem runDiarization_exit (uuid : Nat → Str) (mid ap outputDir now : Str)
    (parse : Str → LineParse) (file : ResultFile) (db : DB) (sp : SpawnOutcome)
    (hspawn : sp.spawnError = none) (hm : getMeetingRow db mid ≠ none) :
    (sp.exitCode ≠ 0 →
      runDiarization ap true outputDir sp =
        .error (toStr "Diarization process exited with code " ++ intStr sp.exitCode ++
          toStr ".\n" ++ (if sp.stderr = [] then sp.stdout else sp.stderr)) ∧
      meetingStatus
          (handleDiarization uuid mid (some ap) true parse file sp outputDir now db).1
          mid = some (toStr "failed") ∧
      (handleDiarization uuid mid (some ap) true parse file sp outputDir now db).2 =
        .caught (toStr "Diarization process exited with code " ++ intStr sp.exitCode ++
          toStr ".\n" ++ (if sp.stderr = [] then sp.stdout else sp.stderr))) ∧
    (sp.exitCode = 0 →
      runDiarization ap true outputDir sp = .ok ⟨sp.stdout, sp.stderr, outputDir⟩) := by
  constructor
  · intro hcode
    have hrun : runDiarization ap true outputDir sp =
        .error (processFailureMsg sp.exitCode sp.stdout sp.stderr) := by
      simp [runDiarization, hspawn, hcode]
    refine ⟨by rw [hrun]; rfl, ?_, ?_⟩
    · simp only [handleDiarization, hrun]
      simp only [not_true, if_false]
      exact meetingStatus_update_some db mid (toStr "failed") hm
    · simp [handleDiarization, hrun, processFailureMsg]
  · intro hcode
    simp [runDiarization, hspawn, hcode]

theorem runDiarization_exit_w :
    meetingStatus
        (handleDiarization (fun n => natStr n) (toStr "m1") (some (toStr "a.wav")) true
          (fun _ => .fail) .absent ⟨none, 1, toStr "out text", toStr "boom"⟩
          (toStr "od") (toStr "t")
          ⟨[⟨toStr "m1", toStr "demo", toStr "processing", toStr "t", none, none, none⟩],
            [], []⟩).1
        (toStr "m1") = some (toStr "failed") ∧
    runDiarization (toStr "a.wav") true (toStr "od")
        ⟨none, 1, toStr "out text", toStr "boom"⟩ =
      .error (toStr "Diarization process exited with code 1.\nboom") := by
  have h := (runDiarization_exit (fun n => natStr n) (toStr "m1") (toStr "a.wav")
    (toStr "od") (toStr "t") (fun _ => .fail) .absent
    ⟨[⟨toStr "m1", toStr "demo", toStr "processing", toStr "t", none, none, none⟩],
      [], []⟩
    ⟨none, 1, toStr "out text", toStr "boom"⟩ rfl (by decide)).1 (by decide)
  refine ⟨h.2.1, h.1.trans ?_⟩
  exact congrArg Except.error (by decide)

theorem runDiarization_ok_inv (ap : Str) (b : Bool) (od : Str) (sp : SpawnOutcome)
    (r : RunResult) (h : runDiarization ap b od sp = .ok r) :
    r = ⟨sp.stdout, sp.stderr, od⟩ := by
  unfold runDiarization at h
  by_cases hb : b
  · simp only [hb] at h
    cases hsp : sp.spawnError with
    | some e => rw [hsp] at h; simp at h
    | none =>
      rw [hsp] at h
      by_cases hc : sp.exitCode ≠ 0
      · rw [if_pos hc] at h; simp at h
      · rw [if_neg hc] at h
        simp only [not_true, if_false] at h
        exact (Except.ok.injEq _ _ ▸ congrArg id h) ▸ (Except.ok.inj h).symm
  · simp [hb] at h

theorem persistPayload_meetings (uuid : Nat → Str) (mid : Str) (p : Payload)
    (now : Str) (db : DB) :
    (persistPayload uuid mid p now db).meetings = db.meetings := by
  unfold persistPayload
  repeat first
  | rfl
  | split

/-- C1 (amended): every job-level error leaves the meeting `failed`; a
successfully extracted and persisted payload leaves the meeting with the
payload's own non-empty `status` string when it carries one, and `done`
otherwise — so the final status is `done` in the normal case but any string
the engine reports is stored verbatim. -/
theorem handleDiarization_status (uuid : Nat → Str) (mid : Str)
    (audioPath : Option Str) (audioExists : Bool) (parse : Str → LineParse)
    (file : ResultFile) (sp : SpawnOutcome) (outputDir now : Str) (db : DB)
    (hm : getMeetingRow db mid ≠ none) :
    (((handleDiarization uuid mid audioPath audioExists parse file sp outputDir
          now db).2 = .earlyFailed ∨
      ∃ e, (handleDiarization uuid mid audioPath audioExists parse file sp outputDir
          now db).2 = .caught e) →
      meetingStatus (handleDiarization uuid mid audioPath audioExists parse file sp
          outputDir now db).1 mid = some (toStr "failed")) ∧
    (∀ s, (handleDiarization uuid mid audioPath audioExists parse file sp outputDir
          now db).2 = .completed s →
      meetingStatus (handleDiarization uuid mid audioPath audioExists parse file sp
          outputDir now db).1 mid = some s ∧
      (s = toStr "done" ∨ (s ≠ [] ∧ ∃ p : Payload, p.status = some s ∧
        (extractFromStdout parse sp.stdout = some p ∨
          (extractFromStdout parse sp.stdout = none ∧ file = .parsed p))))) := by
  have hdone : ∀ p : Payload, nextStatusOf p = toStr "done" ∨
      (nextStatusOf p ≠ [] ∧ p.status = some (nextStatusOf p)) := by
    intro p
    rcases hst : p.status with _ | s
    · exact Or.inl (by simp [nextStatusOf, hst])
    · by_cases hs : s = []
      · exact Or.inl (by simp [nextStatusOf, hst, hs])
      · exact Or.inr ⟨by simp [nextStatusOf, hst, hs], by simp [nextStatusOf, hst, hs]⟩
  cases audioPath with
  | none =>
    refine ⟨fun _ => meetingStatus_update_some db mid (toStr "failed") hm, ?_⟩
    intro s hs
    simp [handleDiarization] at hs
  | some ap =>
    by_cases hex : audioExists = true
    · subst hex
      cases hrd : runDiarization ap true outputDir sp with
      | error e =>
        refine ⟨fun _ => ?_, ?_⟩
        · simp only [handleDiarization, hrd, not_true, if_false]
          exact meetingStatus_update_some db mid (toStr "failed") hm
        · intro s hs
          simp [handleDiarization, hrd] at hs
      | ok result =>
        have hres := runDiarization_ok_inv ap true outputDir sp result hrd
        have hstd : result.stdout = sp.stdout := by rw [hres]
        cases hext : extractFromStdout parse sp.stdout with
        | some p =>
          have hred : handleDiarization uuid mid (some ap) true parse file sp
              outputDir now db =
              (updateMeetingStatus mid (nextStatusOf p)
                (persistPayload uuid mid p now db), .completed (nextStatusOf p)) := by
            simp only [handleDiarization, hrd, not_true, if_false, hstd, hext]
          refine ⟨?_, ?_⟩
          · intro hcon
            rw [hred] at hcon
            rcases hcon with hcon | ⟨e, hcon⟩ <;> simp at hcon
          · intro s hs
            rw [hred] at hs
            simp only at hs
            have hs' := (JobOutcome.completed.inj hs).symm
            subst hs'
            rw [hred]
            refine ⟨meetingStatus_update_some _ mid _ ?_, ?_⟩
            · simp only [getMeetingRow, persistPayload_meetings]
              exact hm
            · rcases hdone p with h | ⟨h1, h2⟩
              · exact Or.inl h
              · exact Or.inr ⟨h1, p, h2, Or.inl rfl⟩
        | none =>
          cases file with
          | parsed p =>
            have hred : handleDiarization uuid mid (some ap) true parse (.parsed p) sp
                outputDir now db =
                (updateMeetingStatus mid (nextStatusOf p)
                  (persistPayload uuid mid p now db), .completed (nextStatusOf p)) := by
              simp only [handleDiarization, hrd, not_true, if_false, hstd, hext]
            refine ⟨?_, ?_⟩
            · intro hcon
              rw [hred] at hcon
              rcases hcon with hcon | ⟨e, hcon⟩ <;> simp at hcon
            · intro s hs
              rw [hred] at hs
              simp only at hs
              have hs' := (JobOutcome.completed.inj hs).symm
              subst hs'
              rw [hred]
              refine ⟨meetingStatus_update_some _ mid _ ?_, ?_⟩
              · simp only [getMeetingRow, persistPayload_meetings]
                exact hm
              · rcases hdone p with h | ⟨h1, h2⟩
                · exact Or.inl h
                · exact Or.inr ⟨h1, p, h2, Or.inr ⟨rfl, rfl⟩⟩
          | unparseable err =>
            refine ⟨fun _ => ?_, ?_⟩
            · simp only [handleDiarization, hrd, not_true, if_false, hstd, hext]
              exact meetingStatus_update_some db mid (toStr "failed") hm
            · intro s hs
              simp [handleDiarization, hrd, hstd, hext] at hs
          | nullish =>
            refine ⟨fun _ => ?_, ?_⟩
            · simp only [handleDiarization, hrd, not_true, if_false, hstd, hext]
              exact meetingStatus_update_some db mid (toStr "failed") hm
            · intro s hs
              simp [handleDiarization, hrd, hstd, hext] at hs
          | absent =>
            refine ⟨fun _ => ?_, ?_⟩
            · simp only [handleDiarization, hrd, not_true, if_false, hstd, hext]
              exact meetingStatus_update_some db mid (toStr "failed") hm
            · intro s hs
              simp [handleDiarization, hrd, hstd, hext] at hs
    · have hex' : audioExists = false := by
        cases audioExists
        · rfl
        · exact absurd rfl hex
      subst hex'
      refine ⟨fun _ => ?_, ?_⟩
      · have hred : handleDiarization uuid mid (some ap) false parse file sp
            outputDir now db =
            (updateMeetingStatus mid (toStr "failed") db, .earlyFailed) := by
          simp [handleDiarization]
        rw [hred]
        exact meetingStatus_update_some db mid (toStr "failed") hm
      · intro s hs
        simp [handleDiarization] at hs

theorem handleDiarization_status_w :
    meetingStatus
      (handleDiarization (fun n => natStr n) (toStr "m1") (some (toStr "a.wav")) true
        (fun _ => .fail) .absent ⟨none, 0, toStr "noise", []⟩ (toStr "od") (toStr "t")
        ⟨[⟨toStr "m1", toStr "demo", toStr "processing", toStr "t", none, none, none⟩],
          [], []⟩).1
      (toStr "m1") = some (toStr "failed") := by
  have h := (handleDiarization_status (fun n => natStr n) (toStr "m1")
    (some (toStr "a.wav")) true (fun _ => .fail) .absent
    ⟨none, 0, toStr "noise", []⟩ (toStr "od") (toStr "t")
    ⟨[⟨toStr "m1", toStr "demo", toStr "processing", toStr "t", none, none, none⟩],
      [], []⟩ (by decide)).1
  exact h (Or.inr ⟨payloadMissingMsg, by decide⟩)

/-- C1 (counterexample): a job whose payload is successfully extracted and
persisted does not necessarily leave the meeting `done` — the handler stores
`payload.status` verbatim when it is a non-empty string.  With the engine
reporting `status: "custom"` for a roster of one speaker, the meeting ends in
status `custom`, which is outside the four lifecycle statuses. -/
theorem handleDiarization_status_cx :
    ((handleDiarization (fun n => natStr n) (toStr "m1") (some (toStr "a.wav")) true
        (fun s => if s = toStr "RESULT" then
          .ok ⟨some (toStr "custom"), some [⟨some (toStr "Speaker 1"), none⟩], none⟩
          else .fail)
        .absent ⟨none, 0, toStr "RESULT", []⟩ (toStr "od") (toStr "t")
        ⟨[⟨toStr "m1", toStr "demo", toStr "processing", toStr "t", none, none, none⟩],
          [], []⟩).2 = .completed (toStr "custom")) ∧
    meetingStatus
      (handleDiarization (fun n => natStr n) (toStr "m1") (some (toStr "a.wav")) true
        (fun s => if s = toStr "RESULT" then
          .ok ⟨some (toStr "custom"), some [⟨some (toStr "Speaker 1"), none⟩], none⟩
          else .fail)
        .absent ⟨none, 0, toStr "RESULT", []⟩ (toStr "od") (toStr "t")
        ⟨[⟨toStr "m1", toStr "demo", toStr "processing", toStr "t", none, none, none⟩],
          [], []⟩).1
      (toStr "m1") = some (toStr "custom") ∧
    (meetingSpeakers
      (handleDiarization (fun n => natStr n) (toStr "m1") (some (toStr "a.wav")) true
        (fun s => if s = toStr "RESULT" then
          .ok ⟨some (toStr "custom"), some [⟨some (toStr "Speaker 1"), none⟩], none⟩
          else .fail)
        .absent ⟨none, 0, toStr "RESULT", []⟩ (toStr "od") (toStr "t")
        ⟨[⟨toStr "m1", toStr "demo", toStr "processing", toStr "t", none, none, none⟩],
          [], []⟩).1
      (toStr "m1")).length = 1 ∧
    toStr "custom" ∉ lifecycleStatuses ∧
    toStr "custom" ≠ toStr "done" := by
  refine ⟨by decide, by decide, by decide, by decide, by decide⟩

theorem scanBack_some_iff (parse : Str → LineParse) (hful : ∀ s, parse s ≠ .nullish)
    (L : List Str) (p : Payload) :
    scanBack parse L = some p ↔
      ∃ L1 l L2, L = L1 ++ l :: L2 ∧ parse (jsTrim l) = .ok p ∧
        ∀ x ∈ L1, parse (jsTrim x) = .fail := by
  induction L with
  | nil =>
    constructor
    · intro h
      simp [scanBack] at h
    · rintro ⟨L1, l, L2, h, _, _⟩
      exact absurd h (by simp)
  | cons a rest ih =>
    constructor
    · intro h
      simp only [scanBack] at h
      cases hpa : parse (jsTrim a) with
      | ok q =>
        rw [hpa] at h
        simp only [Option.some.injEq] at h
        exact ⟨[], a, rest, rfl, by rw [hpa, h], by simp⟩
      | nullish => exact absurd hpa (hful _)
      | fail =>
        rw [hpa] at h
        obtain ⟨L1, l, L2, heq, hok, hfail⟩ := ih.mp h
        refine ⟨a :: L1, l, L2, by rw [heq]; rfl, hok, ?_⟩
        intro x hx
        rcases List.mem_cons.mp hx with rfl | hx
        · exact hpa
        · exact hfail x hx
    · rintro ⟨L1, l, L2, heq, hok, hfail⟩
      cases L1 with
      | nil =>
        simp only [List.nil_append, List.cons.injEq] at heq
        obtain ⟨rfl, rfl⟩ := heq
        simp [scanBack, hok]
      | cons b L1' =>
        simp only [List.cons_append, List.cons.injEq] at heq
        obtain ⟨rfl, hrest⟩ := heq
        have hfa : parse (jsTrim a) = .fail := hfail a (by simp)
        simp only [scanBack, hfa]
        exact ih.mpr ⟨L1', l, L2, hrest, hok, fun x hx => hfail x (by simp [hx])⟩

theorem scanBack_none_iff (parse : Str → LineParse) (hful : ∀ s, parse s ≠ .nullish)
    (L : List Str) :
    scanBack parse L = none ↔ ∀ x ∈ L, parse (jsTrim x) = .fail := by
  induction L with
  | nil => simp [scanBack]
  | cons a rest ih =>
    constructor
    · intro h
      simp only [scanBack] at h
      cases hpa : parse (jsTrim a) with
      | ok q => rw [hpa] at h; exact absurd h (by simp)
      | nullish => exact absurd hpa (hful _)
      | fail =>
        rw [hpa] at h
        intro x hx
        rcases List.mem_cons.mp hx with rfl | hx
        · exact hpa
        · exact ih.mp h x hx
    · intro h
      have hfa : parse (jsTrim a) = .fail := h a (by simp)
      simp only [scanBack, hfa]
      exact ih.mpr (fun x hx => h x (by simp [hx]))

/-- C2: result extraction scans the non-empty stdout lines from last to
first and answers with the trimmed line closest to the end that parses (all
lines after it fail to parse); when no line parses it falls back to the
output-directory result file, and when that too is missing the job fails
with `PayloadMissing` and the meeting ends `failed`.  The parser is
universally quantified over parsers that never accept a line as a falsy
non-record value. -/
theorem outputResolver_scan (uuid : Nat → Str) (mid ap outputDir now : Str)
    (parse : Str → LineParse) (db : DB) (sp : SpawnOutcome)
    (hful : ∀ s, parse s ≠ .nullish)
    (hspawn : sp.spawnError = none) (hcode : sp.exitCode = 0)
    (hm : getMeetingRow db mid ≠ none) :
    (∀ p, extractFromStdout parse sp.stdout = some p ↔
      ∃ pre l post, nonEmptyLines sp.stdout = pre ++ l :: post ∧
        parse (jsTrim l) = .ok p ∧ ∀ x ∈ post, parse (jsTrim x) = .fail) ∧
    (extractFromStdout parse sp.stdout = none ↔
      ∀ x ∈ nonEmptyLines sp.stdout, parse (jsTrim x) = .fail) ∧
    (∀ p, extractFromStdout parse sp.stdout = none →
      (handleDiarization uuid mid (some ap) true parse (.parsed p) sp outputDir
          now db).2 = .completed (nextStatusOf p)) ∧
    (extractFromStdout parse sp.stdout = none →
      (handleDiarization uuid mid (some ap) true parse .absent sp outputDir
          now db).2 = .caught payloadMissingMsg ∧
      meetingStatus (handleDiarization uuid mid (some ap) true parse .absent sp
          outputDir now db).1 mid = some (toStr "failed")) := by
  have hrd : runDiarization ap true outputDir sp = .ok ⟨sp.stdout, sp.stderr, outputDir⟩ := by
    simp [runDiarization, hspawn, hcode]
  refine ⟨?_, ?_, ?_, ?_⟩
  · intro p
    rw [extractFromStdout, scanBack_some_iff parse hful]
    constructor
    · rintro ⟨L1, l, L2, heq, hok, hfail⟩
      refine ⟨L2.reverse, l, L1.reverse, ?_, hok, ?_⟩
      · have := congrArg List.reverse heq
        simpa using this
      · intro x hx
        exact hfail x (by simpa using hx)
    · rintro ⟨pre, l, post, heq, hok, hfail⟩
      refine ⟨post.reverse, l, pre.reverse, ?_, hok, ?_⟩
      · rw [heq]
        simp
      · intro x hx
        exact hfail x (by simpa using hx)
  · rw [extractFromStdout, scanBack_none_iff parse hful]
    constructor
    · intro h x hx
      exact h x (by simpa using hx)
    · intro h x hx
      exact h x (by simpa using hx)
  · intro p hnone
    simp only [handleDiarization, hrd, not_true, if_false, hnone]
  · intro hnone
    constructor
    · simp only [handleDiarization, hrd, not_true, if_false, hnone]
    · simp only [handleDiarization, hrd, not_true, if_false, hnone]
      exact meetingStatus_update_some db mid (toStr "failed") hm

theorem outputResolver_scan_w :
    extractFromStdout
      (fun s => if s = toStr "\x7b\x22speakers\x22:[]\x7d" then
        LineParse.ok ⟨none, some [], none⟩ else .fail)
      (toStr "log line 1\nlog line 2\n\x7b\x22speakers\x22:[]\x7d\n") =
      some ⟨none, some [], none⟩ ∧
    (handleDiarization (fun n => natStr n) (toStr "m1") (some (toStr "a.wav")) true
        (fun _ => LineParse.fail) .absent ⟨none, 0, toStr "log only", []⟩ (toStr "od")
        (toStr "t")
        ⟨[⟨toStr "m1", toStr "demo", toStr "processing", toStr "t", none, none, none⟩],
          [], []⟩).2 = .caught payloadMissingMsg := by
  constructor
  · have h := outputResolver_scan (fun n => natStr n) (toStr "m1") (toStr "a.wav")
      (toStr "od") (toStr "t")
      (fun s => if s = toStr "\x7b\x22speakers\x22:[]\x7d" then
        LineParse.ok ⟨none, some [], none⟩ else .fail)
      ⟨[⟨toStr "m1", toStr "demo", toStr "processing", toStr "t", none, none, none⟩],
        [], []⟩
      ⟨none, 0, toStr "log line 1\nlog line 2\n\x7b\x22speakers\x22:[]\x7d\n", []⟩
      (by
        intro s
        by_cases hc : s = toStr "\x7b\x22speakers\x22:[]\x7d" <;> simp [hc])
      rfl rfl (by decide)
    exact (h.1 ⟨none, some [], none⟩).mpr
      ⟨[toStr "log line 1", toStr "log line 2"], toStr "\x7b\x22speakers\x22:[]\x7d", [],
        by decide, by decide, by simp⟩
  · have h := outputResolver_scan (fun n => natStr n) (toStr "m1") (toStr "a.wav")
      (toStr "od") (toStr "t") (fun _ => LineParse.fail)
      ⟨[⟨toStr "m1", toStr "demo", toStr "processing", toStr "t", none, none, none⟩],
        [], []⟩
      ⟨none, 0, toStr "log only", []⟩
      (by intro s; simp) rfl rfl (by decide)
    have hnone : extractFromStdout (fun _ => LineParse.fail) (toStr "log only") = none :=
      h.2.1.mpr (fun x _ => rfl)
    exact (h.2.2.2 hnone).1

/-! ## String-splitting library for the CSV rewriter and export-sync. -/

theorem splitRN_ne_nil (s : Str) : splitRN s ≠ [] := by
  induction s using splitRN.induct with
  | case1 => simp [splitRN]
  | case2 rest ih => simp [splitRN]
  | case3 rest ih => simp [splitRN]
  | case4 c rest h1 h2 h3 ih => exact absurd h3 ih
  | case5 c rest h1 h2 h t hst ih =>
    simp only [splitRN]
    rw [hst]
    simp

theorem splitRN_cons (c : Char) (rest : Str) (hc : c ≠ '\n')
    (hcr : ¬ (c = '\r' ∧ ∃ r', rest = '\n' :: r')) :
    splitRN (c :: rest) = match splitRN rest with
      | [] => [[c]]
      | h :: t => (c :: h) :: t := by
  rw [splitRN.eq_def]
  split
  · simp_all
  · rename_i heq
    rw [List.cons.injEq] at heq
    exact absurd ⟨heq.1, _, heq.2⟩ hcr
  · rename_i heq
    rw [List.cons.injEq] at heq
    exact absurd heq.1 hc
  · rename_i heq
    rw [List.cons.injEq] at heq
    obtain ⟨rfl, hr⟩ := heq
    rw [hr]

theorem splitRN_no_lf (s : Str) : ∀ r ∈ splitRN s, '\n' ∉ r := by
  induction s using splitRN.induct with
  | case1 => simp [splitRN]
  | case2 rest ih => simpa [splitRN] using ih
  | case3 rest ih => simpa [splitRN] using ih
  | case4 c rest h1 h2 h3 ih => exact absurd h3 (splitRN_ne_nil rest)
  | case5 c rest h1 h2 h t hst ih =>
    simp only [splitRN]
    rw [hst]
    intro r hr
    rcases List.mem_cons.mp hr with rfl | hr
    · intro hmem
      rcases List.mem_cons.mp hmem with rfl | hmem
      · exact h2 rfl
      · exact ih h (by rw [hst]; simp) hmem
    · exact ih r (by rw [hst]; simp [hr])

theorem splitRN_chars (s : Str) : ∀ r ∈ splitRN s, ∀ c ∈ r, c ∈ s := by
  induction s using splitRN.induct with
  | case1 => simp [splitRN]
  | case2 rest ih =>
    simp only [splitRN]
    intro r hr c hc
    rcases List.mem_cons.mp hr with rfl | hr
    · simp at hc
    · simp [ih r hr c hc]
  | case3 rest ih =>
    simp only [splitRN]
    intro r hr c hc
    rcases List.mem_cons.mp hr with rfl | hr
    · simp at hc
    · simp [ih r hr c hc]
  | case4 c rest h1 h2 h3 ih => exact absurd h3 (splitRN_ne_nil rest)
  | case5 c rest h1 h2 h t hst ih =>
    simp only [splitRN]
    rw [hst]
    intro r hr d hd
    rcases List.mem_cons.mp hr with rfl | hr
    · rcases List.mem_cons.mp hd with rfl | hd
      · simp
      · simp [ih h (by rw [hst]; simp) d hd]
    · simp [ih r (by rw [hst]; simp [hr]) d hd]

theorem splitRN_single (p : Str) (h : '\n' ∉ p) : splitRN p = [p] := by
  induction p with
  | nil => rfl
  | cons c rest ih =>
    have hc : c ≠ '\n' := by rintro rfl; exact h (by simp)
    have hr : splitRN rest = [rest] := ih (fun hm => h (by simp [hm]))
    rw [splitRN_cons c rest hc (by
      rintro ⟨rfl, r', rfl⟩
      exact h (by simp))]
    rw [hr]

theorem splitRN_append_crlf (p t : Str) (h : '\n' ∉ p) :
    splitRN (p ++ '\r' :: '\n' :: t) = p :: splitRN t := by
  induction p with
  | nil => simp [splitRN]
  | cons c rest ih =>
    have hc : c ≠ '\n' := by rintro rfl; exact h (by simp)
    have ih' := ih (fun hm => h (by simp [hm]))
    rw [List.cons_append, splitRN_cons c _ hc ?hcr]
    case hcr =>
      rintro ⟨rfl, r', hr⟩
      rcases rest with _ | ⟨d, rest'⟩
      · simp at hr
      · rw [List.cons_append, List.cons.injEq] at hr
        exact h (by simp [hr.1])
    rw [ih']

theorem splitRN_append_lf (p t : Str) (h : '\n' ∉ p) (h2 : p.getLast? ≠ some '\r') :
    splitRN (p ++ '\n' :: t) = p :: splitRN t := by
  induction p with
  | nil => simp [splitRN]
  | cons c rest ih =>
    have hc : c ≠ '\n' := by rintro rfl; exact h (by simp)
    rcases rest with _ | ⟨d, rest'⟩
    · have hcr : c ≠ '\r' := by
        intro hcc
        exact h2 (by simp [hcc])
      rw [List.cons_append, List.nil_append, splitRN_cons c _ hc (by
        rintro ⟨rfl, r', hr⟩
        exact hcr rfl)]
      rw [show splitRN ('\n' :: t) = [] :: splitRN t from by rw [splitRN]]
    · have ih' := ih (fun hm => h (by simp [hm])) (by
        intro hl
        apply h2
        rw [List.getLast?_cons_cons]
        exact hl)
      rw [List.cons_append, splitRN_cons c _ hc (by
        rintro ⟨rfl, r', hr⟩
        rw [List.cons_append, List.cons.injEq] at hr
        exact h (by simp [hr.1]))]
      rw [ih']

theorem joinSep_cons_cons (sep p q : Str) (rest : List Str) :
    joinSep sep (p :: q :: rest) = p ++ sep ++ joinSep sep (q :: rest) := by
  rw [joinSep.eq_def]

theorem splitRN_joinSep_crlf (pieces : List Str) (hne : pieces ≠ [])
    (h : ∀ p ∈ pieces, '\n' ∉ p) :
    splitRN (joinSep (toStr "\r\n") pieces) = pieces := by
  induction pieces with
  | nil => exact absurd rfl hne
  | cons p rest ih =>
    rcases rest with _ | ⟨q, rest'⟩
    · exact splitRN_single p (h p (by simp))
    · have hj : joinSep (toStr "\r\n") (p :: q :: rest') =
        p ++ '\r' :: '\n' :: joinSep (toStr "\r\n") (q :: rest') := by
        rw [joinSep_cons_cons]
        rw [show toStr "\r\n" = ['\r', '\n'] from by decide]
        simp
      rw [hj, splitRN_append_crlf p _ (h p (by simp))]
      rw [ih (by simp) (fun x hx => h x (by simp [hx]))]

theorem splitRN_joinSep_lf (pieces : List Str) (hne : pieces ≠ [])
    (h : JoinableLF pieces) :
    splitRN (joinSep (toStr "\n") pieces) = pieces := by
  induction pieces with
  | nil => exact absurd rfl hne
  | cons p rest ih =>
    rcases rest with _ | ⟨q, rest'⟩
    · exact splitRN_single p h
    · obtain ⟨h1, h2, h3⟩ := h
      have hj : joinSep (toStr "\n") (p :: q :: rest') =
        p ++ '\n' :: joinSep (toStr "\n") (q :: rest') := by
        rw [joinSep_cons_cons]
        rw [show toStr "\n" = ['\n'] from by decide]
        simp
      rw [hj, splitRN_append_lf p _ h1 h2]
      rw [ih (by simp) h3]

theorem getLast?_cons_of_ne {α : Type} (a : α) (l : List α) (h : l ≠ []) :
    (a :: l).getLast? = l.getLast? := by
  rcases l with _ | ⟨b, l'⟩
  · exact absurd rfl h
  · exact List.getLast?_cons_cons

theorem splitRN_ne_single_nil (s : Str) (hs : s ≠ []) : splitRN s ≠ [[]] := by
  induction s using splitRN.induct with
  | case1 => exact absurd rfl hs
  | case2 rest ih =>
    simp only [splitRN]
    intro h
    rw [List.cons.injEq] at h
    exact splitRN_ne_nil rest h.2
  | case3 rest ih =>
    simp only [splitRN]
    intro h
    rw [List.cons.injEq] at h
    exact splitRN_ne_nil rest h.2
  | case4 c rest h1 h2 h3 ih => exact absurd h3 (splitRN_ne_nil rest)
  | case5 c rest h1 h2 h t hst ih =>
    simp only [splitRN]
    rw [hst]
    simp

theorem splitRN_eq_single_nil (s : Str) (h : splitRN s = [[]]) : s = [] := by
  by_contra hne
  exact splitRN_ne_single_nil s hne h

theorem splitRN_getLast_nil_iff (s : Str) (hs : s ≠ []) :
    (splitRN s).getLast? = some [] ↔ s.getLast? = some '\n' := by
  induction s using splitRN.induct with
  | case1 => exact absurd rfl hs
  | case2 rest ih =>
    rcases eq_or_ne rest [] with rfl | hne
    · constructor
      · intro _; rfl
      · intro _; rfl
    · have h1 : splitRN ('\r' :: '\n' :: rest) = [] :: splitRN rest := by
        simp [splitRN]
      rw [h1, getLast?_cons_of_ne _ _ (splitRN_ne_nil rest)]
      rw [List.getLast?_cons_cons, getLast?_cons_of_ne _ _ hne]
      exact ih hne
  | case3 rest ih =>
    rcases eq_or_ne rest [] with rfl | hne
    · constructor
      · intro _; rfl
      · intro _; rfl
    · have h1 : splitRN ('\n' :: rest) = [] :: splitRN rest := by
        simp [splitRN]
      rw [h1, getLast?_cons_of_ne _ _ (splitRN_ne_nil rest)]
      rw [getLast?_cons_of_ne _ _ hne]
      exact ih hne
  | case4 c rest h1 h2 h3 ih => exact absurd h3 (splitRN_ne_nil rest)
  | case5 c rest h1 h2 h t hst ih =>
    have hsplit : splitRN (c :: rest) = (c :: h) :: t := by
      simp only [splitRN]
      rw [hst]
    rcases t with _ | ⟨q, t'⟩
    · rcases eq_or_ne rest [] with rfl | hne
      · have hh : h = [] := by simpa [splitRN] using hst.symm
        subst hh
        rw [hsplit]
        constructor
        · intro hcon
          simp at hcon
        · intro hcon
          simp at hcon
          exact (h2 hcon).elim
      · have hsingle : splitRN rest = [h] := hst
        have hh : h ≠ [] := by
          intro hcon
          exact splitRN_ne_single_nil rest hne (by rw [hsingle, hcon])
        have hrest : rest.getLast? ≠ some '\n' := by
          intro hcon
          have hx := (ih hne).mpr hcon
          rw [hsingle] at hx
          simp at hx
          exact hh hx
        rw [hsplit, getLast?_cons_of_ne c rest hne]
        constructor
        · intro hcon
          simp at hcon
        · intro hcon
          exact absurd hcon hrest
    · have hne : rest ≠ [] := by
        intro hcon
        subst hcon
        have hx : ([[]] : List Str) = h :: q :: t' := by simpa [splitRN] using hst
        simp at hx
      rw [hsplit, List.getLast?_cons_cons, getLast?_cons_of_ne c rest hne]
      have hx : (splitRN rest).getLast? = (q :: t').getLast? := by
        rw [hst]
        exact getLast?_cons_of_ne h _ (by simp)
      rw [← hx]
      exact ih hne

theorem containsSub_cons (c : Char) (rest pat : Str)
    (h : containsSub rest pat = true) : containsSub (c :: rest) pat = true := by
  simp only [containsSub, List.tails_cons, List.any_cons, Bool.or_eq_true]
  exact Or.inr (by simpa [containsSub] using h)

theorem containsSub_head (s pat : Str) (h : pat.isPrefixOf s = true) :
    containsSub s pat = true := by
  simp only [containsSub, List.any_eq_true]
  exact ⟨s, by simp [List.mem_tails], h⟩

theorem JoinableLF_cons_iff (p : Str) (L : List Str) :
    JoinableLF (p :: L) ↔
      '\n' ∉ p ∧ (L = [] ∨ (p.getLast? ≠ some '\r' ∧ JoinableLF L)) := by
  rcases L with _ | ⟨q, L'⟩
  · simp [JoinableLF]
  · simp only [JoinableLF]
    constructor
    · rintro ⟨h1, h2, h3⟩
      exact ⟨h1, Or.inr ⟨h2, h3⟩⟩
    · rintro ⟨h1, h2 | ⟨h2, h3⟩⟩
      · simp at h2
      · exact ⟨h1, h2, h3⟩

theorem splitRN_head_nil (s : Str) (t : List Str) (h : splitRN s = [] :: t) :
    s = [] ∨ (∃ r, s = '\n' :: r) ∨ (∃ r, s = '\r' :: '\n' :: r) := by
  induction s using splitRN.induct with
  | case1 => exact Or.inl rfl
  | case2 rest ih => exact Or.inr (Or.inr ⟨rest, rfl⟩)
  | case3 rest ih => exact Or.inr (Or.inl ⟨rest, rfl⟩)
  | case4 c rest h1 h2 h3 ih => exact absurd h3 (splitRN_ne_nil rest)
  | case5 c rest h1 h2 hh tt hst ih =>
    rw [show splitRN (c :: rest) = (c :: hh) :: tt from by
      simp only [splitRN]; rw [hst]] at h
    simp at h

theorem noCrlf_joinable (s : Str) (h : containsSub s (toStr "\r\n") = false) :
    JoinableLF (splitRN s) := by
  induction s using splitRN.induct with
  | case1 => simp [splitRN, JoinableLF]
  | case2 rest ih =>
    have : containsSub ('\r' :: '\n' :: rest) (toStr "\r\n") = true :=
      containsSub_head _ _ (by
        rw [show toStr "\r\n" = ['\r', '\n'] from by decide]
        simp [List.isPrefixOf])
    rw [this] at h
    simp at h
  | case3 rest ih =>
    have hrest : containsSub rest (toStr "\r\n") = false := by
      by_contra hc
      rw [containsSub_cons '\n' rest _ (by revert hc; cases containsSub rest (toStr "\r\n") <;> simp)] at h
      simp at h
    have ihj := ih hrest
    rw [show splitRN ('\n' :: rest) = [] :: splitRN rest from by simp [splitRN]]
    rw [JoinableLF_cons_iff]
    refine ⟨by simp, Or.inr ⟨by simp, ihj⟩⟩
  | case4 c rest h1 h2 h3 ih => exact absurd h3 (splitRN_ne_nil rest)
  | case5 c rest h1 h2 hh tt hst ih =>
    have hrest : containsSub rest (toStr "\r\n") = false := by
      by_contra hc
      rw [containsSub_cons c rest _ (by revert hc; cases containsSub rest (toStr "\r\n") <;> simp)] at h
      simp at h
    have ihj := ih hrest
    rw [hst] at ihj
    rw [show splitRN (c :: rest) = (c :: hh) :: tt from by
      simp only [splitRN]; rw [hst]]
    rw [JoinableLF_cons_iff]
    have hnp : '\n' ∉ c :: hh := by
      intro hmem
      rcases List.mem_cons.mp hmem with heq | hmem
      · exact h2 heq.symm
      · exact splitRN_no_lf rest hh (by rw [hst]; simp) hmem
    refine ⟨hnp, ?_⟩
    rcases tt with _ | ⟨q, tt'⟩
    · exact Or.inl rfl
    · refine Or.inr ⟨?_, ?_⟩
      · rcases hh with _ | ⟨d, hh'⟩
        · intro hcl
          simp at hcl
          subst hcl
          rcases splitRN_head_nil rest (q :: tt') hst with rfl | ⟨r, rfl⟩ | ⟨r, rfl⟩
          · rw [show splitRN ([] : Str) = [[]] from rfl] at hst
            simp at hst
          · exact h1 r rfl rfl
          · have hcc : containsSub ('\r' :: '\n' :: r) (toStr "\r\n") = true :=
              containsSub_head _ _ (by
                rw [show toStr "\r\n" = ['\r', '\n'] from by decide]
                simp [List.isPrefixOf])
            rw [hcc] at hrest
            simp at hrest
        · rw [JoinableLF_cons_iff] at ihj
          rcases ihj.2 with hq | ⟨hcr, _⟩
          · simp at hq
          · intro hcl
            apply hcr
            rwa [getLast?_cons_of_ne c (d :: hh') (by simp)] at hcl
      · rw [JoinableLF_cons_iff] at ihj
        rcases ihj.2 with hq | ⟨_, hj⟩
        · simp at hq
        · exact hj

theorem crlfOnly_cons_step (c : Char) (rest : Str) (hc : c ≠ '\n')
    (hcr : ¬ (c = '\r' ∧ ∃ r', rest = '\n' :: r')) :
    crlfOnly (c :: rest) = crlfOnly rest := by
  rw [crlfOnly.eq_def]
  split
  · simp_all
  · rename_i heq
    rw [List.cons.injEq] at heq
    exact absurd ⟨heq.1, _, heq.2⟩ hcr
  · rename_i heq
    rw [List.cons.injEq] at heq
    exact absurd heq.1 hc
  · rename_i heq
    rw [List.cons.injEq] at heq
    rw [heq.2]

theorem crlfOnly_crlf (rest : Str) : crlfOnly ('\r' :: '\n' :: rest) = crlfOnly rest := by
  rfl

theorem crlfOnly_no_lf (s : Str) (h : '\n' ∉ s) : crlfOnly s = true := by
  induction s with
  | nil => rfl
  | cons c rest ih =>
    have hc : c ≠ '\n' := by rintro rfl; exact h (by simp)
    rw [crlfOnly_cons_step c rest hc (by
      rintro ⟨rfl, r', rfl⟩
      exact h (by simp))]
    exact ih (fun hm => h (by simp [hm]))

theorem crlfOnly_append_crlf (p t : Str) (hp : '\n' ∉ p) (ht : crlfOnly t = true) :
    crlfOnly (p ++ '\r' :: '\n' :: t) = true := by
  induction p with
  | nil => rw [List.nil_append, crlfOnly_crlf]; exact ht
  | cons c p' ih =>
    have hc : c ≠ '\n' := by rintro rfl; exact hp (by simp)
    rw [List.cons_append, crlfOnly_cons_step c _ hc ?hg]
    case hg =>
      rintro ⟨rfl, r', hr⟩
      rcases p' with _ | ⟨d, p''⟩
      · simp at hr
      · rw [List.cons_append, List.cons.injEq] at hr
        exact hp (by simp [hr.1])
    exact ih (fun hm => hp (by simp [hm]))

theorem crlfOnly_join (pieces : List Str) (h : ∀ p ∈ pieces, '\n' ∉ p) :
    crlfOnly (joinSep (toStr "\r\n") pieces) = true := by
  induction pieces with
  | nil => rfl
  | cons p rest ih =>
    rcases rest with _ | ⟨q, rest'⟩
    · exact crlfOnly_no_lf p (h p (by simp))
    · rw [joinSep_cons_cons, show toStr "\r\n" = ['\r', '\n'] from by decide]
      rw [List.append_assoc]
      rw [show (['\r', '\n'] : Str) ++ joinSep ['\r', '\n'] (q :: rest') =
        '\r' :: '\n' :: joinSep ['\r', '\n'] (q :: rest') from rfl]
      refine crlfOnly_append_crlf p _ (h p (by simp)) ?_
      have hx := ih (fun x hxm => h x (by simp [hxm]))
      rwa [show toStr "\r\n" = ['\r', '\n'] from by decide] at hx

theorem crlfOnly_contains (s : Str) (h : crlfOnly s = true) (hm : '\n' ∈ s) :
    containsSub s (toStr "\r\n") = true := by
  induction s using crlfOnly.induct with
  | case1 => simp at hm
  | case2 rest ih =>
    exact containsSub_head _ _ (by
      rw [show toStr "\r\n" = ['\r', '\n'] from by decide]
      simp [List.isPrefixOf])
  | case3 rest => rw [crlfOnly.eq_def] at h; simp at h
  | case4 c rest h1 h2 ih =>
    have hc : c ≠ '\n' := fun hcc => h2 hcc
    have hrest : '\n' ∈ rest := by
      rcases List.mem_cons.mp hm with heq | hmem
      · exact absurd heq.symm hc
      · exact hmem
    have hcr : crlfOnly rest = true := by
      rwa [crlfOnly_cons_step c rest hc (fun ⟨hcc, r', hr⟩ => h1 r' hcc hr)] at h
    exact containsSub_cons c rest _ (ih hcr hrest)

theorem endsWith_lf_iff (s : Str) :
    endsWithStr s (toStr "\n") = true ↔ s.getLast? = some '\n' := by
  rw [endsWithStr, show (toStr "\n").reverse = ['\n'] from by decide]
  rw [List.isPrefixOf_iff_prefix]
  constructor
  · rintro ⟨t, ht⟩
    rw [← List.head?_reverse, ← ht]
    rfl
  · intro h
    rw [← List.head?_reverse] at h
    rcases hrev : s.reverse with _ | ⟨c, t⟩
    · rw [hrev] at h; simp at h
    · rw [hrev] at h
      simp only [List.head?_cons, Option.some.injEq] at h
      exact ⟨t, by simp [hrev, h]⟩

theorem endsWith_crlf_last (s : Str) (h : endsWithStr s (toStr "\r\n") = true) :
    s.getLast? = some '\n' := by
  rw [endsWithStr, show (toStr "\r\n").reverse = ['\n', '\r'] from by decide] at h
  rw [List.isPrefixOf_iff_prefix] at h
  obtain ⟨t, ht⟩ := h
  rw [← List.head?_reverse, ← ht]
  rfl

theorem joinSep_ne_nil (sep : Str) (pieces : List Str) (hsep : sep ≠ [])
    (hp : 1 < pieces.length) : joinSep sep pieces ≠ [] := by
  rcases pieces with _ | ⟨p, _ | ⟨q, rest⟩⟩
  · simp at hp
  · simp at hp
  · rw [joinSep_cons_cons]
    simp [hsep]

theorem joinSep_getLast_ne (sep : Str) :
    ∀ (pieces : List Str) (lp : Str), pieces.getLast? = some lp → lp ≠ [] →
      (joinSep sep pieces).getLast? = lp.getLast? := by
  intro pieces
  induction pieces with
  | nil => intro lp h; simp at h
  | cons p rest ih =>
    intro lp h hlp
    rcases rest with _ | ⟨q, rest'⟩
    · simp only [List.getLast?_singleton, Option.some.injEq] at h
      subst h
      rfl
    · rw [getLast?_cons_of_ne p (q :: rest') (by simp)] at h
      rw [joinSep_cons_cons, List.append_assoc, List.getLast?_append]
      rw [List.getLast?_append]
      rw [ih lp h hlp]
      have : lp.getLast?.isSome := by
        rcases lp with _ | ⟨x, lp'⟩
        · exact absurd rfl hlp
        · simp [List.getLast?_isSome]
      rcases hopt : lp.getLast? with _ | v
      · rw [hopt] at this; simp at this
      · rfl

theorem joinSep_getLast_nil (sep : Str) (hsep : sep ≠ []) :
    ∀ (pieces : List Str), 1 < pieces.length → pieces.getLast? = some [] →
      (joinSep sep pieces).getLast? = sep.getLast? := by
  intro pieces
  induction pieces with
  | nil => intro h; simp at h
  | cons p rest ih =>
    intro hlen h
    rcases rest with _ | ⟨q, rest'⟩
    · simp at hlen
    · rw [getLast?_cons_of_ne p (q :: rest') (by simp)] at h
      rw [joinSep_cons_cons, List.append_assoc, List.getLast?_append]
      rcases rest' with _ | ⟨r, rest''⟩
      · simp only [List.getLast?_singleton, Option.some.injEq] at h
        subst h
        rw [show joinSep sep [([] : Str)] = [] from rfl]
        rw [List.getLast?_append]
        rcases hopt : sep.getLast? with _ | v
        · rw [List.getLast?_eq_none_iff] at hopt
          exact absurd hopt hsep
        · rfl
      · have hx := ih (by simp) h
        rw [List.getLast?_append, hx]
        have : sep.getLast?.isSome := by
          rcases sep with _ | ⟨x, sep'⟩
          · exact absurd rfl hsep
          · simp [List.getLast?_isSome]
        rcases hopt : sep.getLast? with _ | v
        · rw [hopt] at this; simp at this
        · rfl

/-! ## Per-row facts about the CSV rewriter. -/

theorem csvRewriteRow_cases (reps : List (Str × Str)) (i : Nat) (r : Str) :
    csvRewriteRow reps i r = (false, r) ∨
    (i ≠ 0 ∧ jsTrim r ≠ [] ∧ ∃ ci name,
      r.findIdx? (fun c => c = ',') = some ci ∧
      mapGet reps (jsTrim (r.take ci)) = some name ∧ name ≠ [] ∧
      name ≠ jsTrim (r.take ci) ∧
      csvRewriteRow reps i r =
        (true, leadingWs (r.take ci) ++ name ++ trailingWs (r.take ci) ++ r.drop ci)) := by
  unfold csvRewriteRow
  dsimp only
  by_cases h0 : i = 0 ∨ jsTrim r = []
  · rw [if_pos h0]
    exact Or.inl rfl
  · rw [if_neg h0]
    push_neg at h0
    cases hci : r.findIdx? (fun c => c = ',') with
    | none => exact Or.inl rfl
    | some ci =>
      dsimp only
      cases hname : mapGet reps (jsTrim (r.take ci)) with
      | none => exact Or.inl rfl
      | some name =>
        dsimp only
        by_cases hn : name = [] ∨ name = jsTrim (r.take ci)
        · rw [if_pos hn]
          exact Or.inl rfl
        · rw [if_neg hn]
          push_neg at hn
          exact Or.inr ⟨h0.1, h0.2, ci, name, rfl, hname, hn.1, hn.2, rfl⟩

theorem mapGet_mem (m : List (Str × Str)) (k v : Str) (h : mapGet m k = some v) :
    ∃ e ∈ m, e.2 = v := by
  simp only [mapGet, Option.map_eq_some'] at h
  obtain ⟨e, he, hv⟩ := h
  exact ⟨e, List.mem_of_find?_eq_some he, hv⟩

theorem csvRewriteRow_not_mem (reps : List (Str × Str)) (i : Nat) (r : Str)
    (c : Char) (hc : c ∉ r) (hvals : ∀ e ∈ reps, c ∉ e.2) :
    c ∉ (csvRewriteRow reps i r).2 := by
  rcases csvRewriteRow_cases reps i r with h | ⟨_, _, ci, name, _, hname, _, _, h⟩
  · rw [h]
    exact hc
  · rw [h]
    intro hmem
    simp only [List.mem_append] at hmem
    rcases hmem with ((hm | hm) | hm) | hm
    · exact hc (List.take_subset ci r (List.takeWhile_subset _ hm))
    · obtain ⟨e, he, rfl⟩ := mapGet_mem reps _ name hname
      exact hvals e he hm
    · refine hc (List.take_subset ci r ?_)
      have h1 := List.mem_reverse.mp hm
      have h2 := List.takeWhile_subset _ h1
      exact List.mem_reverse.mp h2
    · exact hc (List.drop_subset ci r hm)

theorem csvRewriteRow_getLast (reps : List (Str × Str)) (i : Nat) (r : Str) :
    (csvRewriteRow reps i r).2.getLast? = r.getLast? := by
  rcases csvRewriteRow_cases reps i r with h | ⟨_, _, ci, name, hci, _, _, _, h⟩
  · rw [h]
  · rw [h]
    have hlt : ci < r.length := (List.findIdx?_eq_some_iff_getElem.mp hci).1
    have hdrop : r.drop ci ≠ [] := by
      intro hcon
      rw [List.drop_eq_nil_iff] at hcon
      omega
    have hsome : (r.drop ci).getLast?.isSome := by
      rw [Option.isSome_iff_ne_none, Ne, List.getLast?_eq_none_iff]
      exact hdrop
    obtain ⟨v, hv⟩ := Option.isSome_iff_exists.mp hsome
    simp only [List.append_assoc, List.getLast?_append, hv]
    have hr : r.getLast? = (r.drop ci).getLast? := by
      conv_lhs => rw [← List.take_append_drop ci r]
      rw [List.getLast?_append, hv]
      rfl
    rw [hr, hv]
    rfl

theorem csvRewriteRow_nil_iff (reps : List (Str × Str)) (i : Nat) (r : Str) :
    ((csvRewriteRow reps i r).2 = [] ↔ r = []) := by
  rw [← List.getLast?_eq_none_iff, ← List.getLast?_eq_none_iff, csvRewriteRow_getLast]

theorem csvRewriteRow_index (reps : List (Str × Str)) (i j : Nat) (r : Str)
    (hi : i ≠ 0) (hj : j ≠ 0) :
    csvRewriteRow reps i r = csvRewriteRow reps j r := by
  unfold csvRewriteRow
  by_cases hb : jsTrim r = []
  · rw [if_pos (Or.inr hb), if_pos (Or.inr hb)]
  · rw [if_neg (by simp [hi, hb]), if_neg (by simp [hj, hb])]

theorem enumFrom_map_csvRow (reps : List (Str × Str)) :
    ∀ (rest : List Str) (n : Nat), n ≠ 0 →
      (List.enumFrom n rest).map (fun e => csvRewriteRow reps e.1 e.2) =
        rest.map (fun r => csvRewriteRow reps 1 r) := by
  intro rest
  induction rest with
  | nil => intro n _; rfl
  | cons r rest ih =>
    intro n hn
    simp only [List.enumFrom, List.map_cons]
    rw [csvRewriteRow_index reps n 1 r hn (by omega)]
    rw [ih (n + 1) (by omega)]

theorem csv_results_shape (reps : List (Str × Str)) (r0 : Str) (rest : List Str) :
    ((r0 :: rest).enum.map (fun e => csvRewriteRow reps e.1 e.2)) =
      (false, r0) :: rest.map (fun r => csvRewriteRow reps 1 r) := by
  have h0 : csvRewriteRow reps 0 r0 = (false, r0) := by
    unfold csvRewriteRow
    rw [if_pos (Or.inl rfl)]
  simp only [List.enum, List.enumFrom, List.map_cons, h0]
  rw [enumFrom_map_csvRow reps rest 1 (by omega)]

theorem joinSep_snoc (sep x : Str) :
    ∀ (A : List Str), A ≠ [] → joinSep sep (A ++ [x]) = joinSep sep A ++ sep ++ x := by
  intro A
  induction A with
  | nil => intro h; exact absurd rfl h
  | cons p rest ih =>
    intro _
    rcases rest with _ | ⟨q, rest'⟩
    · rw [show ([p] : List Str) ++ [x] = p :: [x] from rfl, joinSep_cons_cons]
      rfl
    · show joinSep sep (p :: (q :: (rest' ++ [x]))) = joinSep sep (p :: q :: rest') ++ sep ++ x
      rw [joinSep_cons_cons sep p q (rest' ++ [x]), joinSep_cons_cons sep p q rest']
      rw [show q :: (rest' ++ [x]) = (q :: rest') ++ [x] from rfl]
      rw [ih (by simp)]
      simp [List.append_assoc]

theorem endsWith_append_self (x pat : Str) : endsWithStr (x ++ pat) pat = true := by
  rw [endsWithStr, List.isPrefixOf_iff_prefix, List.reverse_append]
  exact List.prefix_append _ _

theorem joinSep_chars (sep : Str) :
    ∀ (pieces : List Str) (c : Char), c ∈ joinSep sep pieces →
      c ∈ sep ∨ ∃ p ∈ pieces, c ∈ p := by
  intro pieces
  induction pieces with
  | nil => intro c hc; simp [joinSep] at hc
  | cons p rest ih =>
    intro c hc
    rcases rest with _ | ⟨q, rest'⟩
    · exact Or.inr ⟨p, by simp, hc⟩
    · rw [joinSep_cons_cons] at hc
      simp only [List.mem_append] at hc
      rcases hc with (hc | hc) | hc
      · exact Or.inr ⟨p, by simp, hc⟩
      · exact Or.inl hc
      · rcases ih c hc with h | ⟨x, hx, hcx⟩
        · exact Or.inl h
        · exact Or.inr ⟨x, by simp [hx], hcx⟩

theorem containsSub_chars (s pat : Str) (h : containsSub s pat = true) :
    ∀ c ∈ pat, c ∈ s := by
  intro c hc
  simp only [containsSub, List.any_eq_true] at h
  obtain ⟨t, ht, hp⟩ := h
  rw [List.isPrefixOf_iff_prefix] at hp
  have h1 : c ∈ t := hp.subset hc
  exact ((List.mem_tails _ _).mp ht).subset h1

theorem lf_mem_of_two_rows (s : Str) (h : 1 < (splitRN s).length) : '\n' ∈ s := by
  by_contra hc
  rw [splitRN_single s hc] at h
  simp at h

theorem hadTrailing_iff (s : Str) :
    (endsWithStr s (toStr "\r\n") = true ∨ endsWithStr s (toStr "\n") = true) ↔
      s.getLast? = some '\n' := by
  constructor
  · rintro (h | h)
    · exact endsWith_crlf_last s h
    · exact (endsWith_lf_iff s).mp h
  · intro h
    exact Or.inr ((endsWith_lf_iff s).mpr h)

theorem JoinableLF_map_transfer (g : Str → Str)
    (hgl : ∀ r, (g r).getLast? = r.getLast?) :
    ∀ (L : List Str), JoinableLF L → (∀ r ∈ L, '\n' ∉ g r) →
      JoinableLF (L.map g) := by
  intro L
  induction L with
  | nil => intro _ _; exact trivial
  | cons p rest ih =>
    intro hj hnf
    rw [List.map_cons, JoinableLF_cons_iff]
    rw [JoinableLF_cons_iff] at hj
    refine ⟨hnf p (by simp), ?_⟩
    rcases hj.2 with rfl | ⟨hcr, hjr⟩
    · exact Or.inl rfl
    · rcases rest with _ | ⟨q, rest'⟩
      · exact Or.inl rfl
      · refine Or.inr ⟨by rw [hgl p]; exact hcr, ?_⟩
        exact ih hjr (fun r hr => hnf r (by simp [hr]))

theorem csv_apply_changed_eq (content : Str) (reps : List (Str × Str)) (o : Str)
    (hvals : ∀ e ∈ reps, '\n' ∉ e.2)
    (h : applySpeakerNamesToCsv (some content) reps = (true, some o)) :
    1 < (splitRN content).length ∧
    o = joinSep
        (if containsSub content (toStr "\r\n") = true then toStr "\r\n" else toStr "\n")
        ((splitRN content).enum.map (fun e => (csvRewriteRow reps e.1 e.2).2)) := by
  unfold applySpeakerNamesToCsv at h
  dsimp only at h
  split at h
  · simp at h
  · rename_i hany
    rw [not_not] at hany
    rw [Prod.mk.injEq, Option.some.injEq] at h
    rcases hrows : splitRN content with _ | ⟨r0, rest⟩
    · exact absurd hrows (splitRN_ne_nil content)
    rw [hrows] at hany h
    rw [csv_results_shape] at hany
    simp only [List.any_cons, Bool.false_or] at hany
    have hrest : rest ≠ [] := by
      intro hcon
      rw [hcon] at hany
      simp at hany
    have hlen : 1 < (r0 :: rest).length := by
      rcases rest with _ | _
      · exact absurd rfl hrest
      · simp
    refine ⟨hlen, ?_⟩
    -- the updated pieces
    have hupd : ((r0 :: rest).enum.map (fun e => csvRewriteRow reps e.1 e.2)).map
        (fun r => r.2) =
        r0 :: rest.map (fun r => (csvRewriteRow reps 1 r).2) := by
      rw [csv_results_shape]
      simp [List.map_map]
    set newline := if containsSub content (toStr "\r\n") = true then toStr "\r\n"
      else toStr "\n" with hnl
    have hnlne : newline ≠ [] := by
      rw [hnl]
      split <;> decide
    have hnl2 : newline = toStr "\r\n" ∨ newline = toStr "\n" := by
      rw [hnl]
      split
      · exact Or.inl rfl
      · exact Or.inr rfl
    -- no updated piece contains a line feed
    have hnf : ∀ r ∈ r0 :: rest.map (fun r => (csvRewriteRow reps 1 r).2), '\n' ∉ r := by
      intro r hr
      rcases List.mem_cons.mp hr with rfl | hr
      · exact splitRN_no_lf content r (by rw [hrows]; simp)
      · obtain ⟨x, hx, rfl⟩ := List.mem_map.mp hr
        exact csvRewriteRow_not_mem reps 1 x '\n'
          (splitRN_no_lf content x (by rw [hrows]; simp [hx])) hvals
    -- the conditional append never fires
    have hdead : ∀ joined : Str,
        joined = joinSep newline (r0 :: rest.map (fun r => (csvRewriteRow reps 1 r).2)) →
        (endsWithStr content (toStr "\r\n") = true ∨ endsWithStr content (toStr "\n") = true) →
        endsWithStr joined newline = true := by
      intro joined hj htrail
      have hcne : content ≠ [] := by
        intro hcon
        rw [hcon] at hrows
        rw [show splitRN ([] : Str) = [[]] from rfl] at hrows
        rw [List.cons.injEq] at hrows
        exact hrest hrows.2.symm
      have hlast : content.getLast? = some '\n' := (hadTrailing_iff content).mp htrail
      have hpieces : (splitRN content).getLast? = some [] :=
        (splitRN_getLast_nil_iff content hcne).mpr hlast
      rw [hrows] at hpieces
      have hulast : (r0 :: rest.map (fun r => (csvRewriteRow reps 1 r).2)).getLast? =
          some [] := by
        rcases rest with _ | ⟨q, rest'⟩
        · exact absurd rfl hrest
        · rw [getLast?_cons_of_ne r0
            ((q :: rest').map (fun r => (csvRewriteRow reps 1 r).2)) (by simp)]
          rw [List.getLast?_map]
          rw [getLast?_cons_of_ne r0 (q :: rest') (by simp)] at hpieces
          rw [hpieces]
          simp only [Option.map_some', Option.some.injEq]
          exact (csvRewriteRow_nil_iff reps 1 []).mpr rfl
      obtain ⟨U, hU⟩ := List.getLast?_eq_some_iff.mp hulast
      have hUne : U ≠ [] := by
        intro hcon
        rw [hcon] at hU
        simp at hU
        rcases rest with _ | _
        · exact absurd rfl hrest
        · simp at hU
      rw [hj, hU, joinSep_snoc newline [] U hUne, List.append_nil]
      exact endsWith_append_self _ _
    -- conclude
    have ho := h.2
    split at ho
    · rename_i hcond
      exact absurd (hdead _ (by rw [hupd]) hcond.1) hcond.2
    · rw [← ho]
      congr 1
      rw [List.map_map]
      rfl

/-! ## Trim lemmas. -/

theorem trimEnd_append_trailingWs (s : Str) : s = trimEnd s ++ trailingWs s := by
  have h : s.reverse = s.reverse.takeWhile isJsWs ++ s.reverse.dropWhile isJsWs :=
    (List.takeWhile_append_dropWhile isJsWs s.reverse).symm
  have h2 := congrArg List.reverse h
  rw [List.reverse_reverse, List.reverse_append] at h2
  exact h2

theorem leadingWs_append_trimStart (s : Str) : s = leadingWs s ++ trimStart s :=
  (List.takeWhile_append_dropWhile isJsWs s).symm

theorem trimEnd_pref (s : Str) : trimEnd s <+: s :=
  ⟨trailingWs s, (trimEnd_append_trailingWs s).symm⟩

theorem trimStart_suffix (s : Str) : trimStart s <:+ s := List.dropWhile_suffix isJsWs

theorem dropWhile_head_not : ∀ (l : Str) (c : Char) (rest : Str),
    l.dropWhile isJsWs = c :: rest → isJsWs c = false := by
  intro l
  induction l with
  | nil => intro c rest h; simp at h
  | cons a l' ih =>
    intro c rest h
    rw [List.dropWhile_cons] at h
    by_cases ha : isJsWs a = true
    · rw [if_pos ha] at h
      exact ih c rest h
    · rw [if_neg ha] at h
      rw [List.cons.injEq] at h
      rw [← h.1]
      exact Bool.eq_false_iff.mpr ha

theorem trimStart_cons_head (s : Str) (h : trimStart s ≠ []) :
    ∃ c rest, trimStart s = c :: rest ∧ isJsWs c = false := by
  rcases htrim : trimStart s with _ | ⟨c, rest⟩
  · exact absurd htrim h
  · exact ⟨c, rest, rfl, dropWhile_head_not s c rest htrim⟩

theorem trimStart_cons_fix (c : Char) (rest : Str) (h : isJsWs c = false) :
    trimStart (c :: rest) = c :: rest := by
  simp [trimStart, List.dropWhile_cons, h]

theorem dropWhile_eq_self_of_head (l : Str) (h : l = [] ∨ ∃ c rest, l = c :: rest ∧ isJsWs c = false) :
    l.dropWhile isJsWs = l := by
  rcases h with rfl | ⟨c, rest, rfl, hc⟩
  · rfl
  · simp [List.dropWhile_cons, hc]

theorem trimEnd_idem (s : Str) : trimEnd (trimEnd s) = trimEnd s := by
  unfold trimEnd
  rw [List.reverse_reverse]
  congr 1
  apply dropWhile_eq_self_of_head
  rcases hd : s.reverse.dropWhile isJsWs with _ | ⟨c, rest⟩
  · exact Or.inl rfl
  · exact Or.inr ⟨c, rest, rfl, dropWhile_head_not s.reverse c rest hd⟩

theorem jsTrim_trimStart_fix (s : Str) : trimStart (jsTrim s) = jsTrim s := by
  rcases hj : jsTrim s with _ | ⟨c, rest⟩
  · rfl
  · apply trimStart_cons_fix
    have hpre : jsTrim s <+: trimStart s := trimEnd_pref (trimStart s)
    rw [hj] at hpre
    obtain ⟨t, ht⟩ := hpre
    have hne : trimStart s ≠ [] := by
      intro hcon
      rw [hcon] at ht
      simp at ht
    obtain ⟨c', rest', hc', hw⟩ := trimStart_cons_head s hne
    rw [hc'] at ht
    rw [List.cons_append] at ht
    have hcc : c = c' := (List.cons.inj ht).1
    rw [hcc]
    exact hw

theorem jsTrim_trimEnd_fix (s : Str) : trimEnd (jsTrim s) = jsTrim s :=
  trimEnd_idem (trimStart s)

theorem jsTrim_idem (s : Str) : jsTrim (jsTrim s) = jsTrim s := by
  unfold jsTrim
  rw [show trimStart (trimEnd (trimStart s)) = trimEnd (trimStart s) from
    jsTrim_trimStart_fix s]
  exact trimEnd_idem (trimStart s)

theorem jsTrim_fix_parts (v : Str) (h : jsTrim v = v) :
    trimStart v = v ∧ trimEnd v = v := by
  have h1 : (trimEnd (trimStart v)).length ≤ (trimStart v).length :=
    (trimEnd_pref (trimStart v)).length_le
  have h2 : (trimStart v).length ≤ v.length := (trimStart_suffix v).length_le
  have h3 : v.length ≤ (trimEnd (trimStart v)).length := by
    rw [show trimEnd (trimStart v) = jsTrim v from rfl, h]
  have h4 : (trimStart v).length = v.length := by omega
  have h5 : trimStart v = v := (trimStart_suffix v).eq_of_length h4
  refine ⟨h5, ?_⟩
  rw [← h5]
  rw [show trimEnd (trimStart v) = jsTrim v from rfl, h, h5]

theorem all_ws_leadingWs (s : Str) : ∀ c ∈ leadingWs s, isJsWs c = true := by
  intro c hc
  exact List.mem_takeWhile_imp hc

theorem all_ws_trailingWs (s : Str) : ∀ c ∈ trailingWs s, isJsWs c = true := by
  intro c hc
  exact List.mem_takeWhile_imp (List.mem_reverse.mp hc)

theorem dropWhile_nil_of_all (l : Str) (h : ∀ c ∈ l, isJsWs c = true) :
    l.dropWhile isJsWs = [] := by
  induction l with
  | nil => rfl
  | cons a l' ih =>
    rw [List.dropWhile_cons, if_pos (h a (by simp))]
    exact ih (fun c hc => h c (by simp [hc]))

theorem trimStart_pad (lw v : Str) (hlw : ∀ c ∈ lw, isJsWs c = true)
    (hv : trimStart v = v) : trimStart (lw ++ v) = v := by
  unfold trimStart
  rw [List.dropWhile_append]
  rw [dropWhile_nil_of_all lw hlw]
  simp only [List.isEmpty_nil, if_true]
  exact hv

theorem trimEnd_pad (v tw : Str) (htw : ∀ c ∈ tw, isJsWs c = true)
    (hv : trimEnd v = v) : trimEnd (v ++ tw) = v := by
  unfold trimEnd
  rw [List.reverse_append, List.dropWhile_append]
  rw [dropWhile_nil_of_all tw.reverse (fun c hc => htw c (List.mem_reverse.mp hc))]
  simp only [List.isEmpty_nil, if_true]
  have hv2 : v.reverse.dropWhile isJsWs = v.reverse := by
    have := congrArg List.reverse hv
    rw [show (trimEnd v).reverse = ((v.reverse.dropWhile isJsWs).reverse).reverse from rfl] at this
    rw [List.reverse_reverse] at this
    exact this
  rw [hv2, List.reverse_reverse]

theorem jsTrim_pad (lw v tw : Str) (hlw : ∀ c ∈ lw, isJsWs c = true)
    (htw : ∀ c ∈ tw, isJsWs c = true) (hv : jsTrim v = v) :
    jsTrim (lw ++ v ++ tw) = v := by
  obtain ⟨hv1, hv2⟩ := jsTrim_fix_parts v hv
  rcases v with _ | ⟨c, v'⟩
  · have hz : trimStart (lw ++ [] ++ tw) = [] := by
      unfold trimStart
      apply dropWhile_nil_of_all
      intro x hx
      simp only [List.append_nil, List.mem_append] at hx
      rcases hx with hx | hx
      · exact hlw x hx
      · exact htw x hx
    unfold jsTrim
    rw [hz]
    rfl
  · have hc : isJsWs c = false := by
      by_contra hcc
      rw [Bool.not_eq_false] at hcc
      rw [show trimStart (c :: v') = List.dropWhile isJsWs (c :: v') from rfl,
        List.dropWhile_cons, if_pos hcc] at hv1
      have := congrArg List.length hv1
      have h2 : (List.dropWhile isJsWs v').length ≤ v'.length :=
        (List.dropWhile_suffix isJsWs).length_le
      simp at this
      omega
    unfold jsTrim
    rw [List.append_assoc]
    rw [trimStart_pad lw (c :: v' ++ tw) hlw (by
      rw [List.cons_append]
      exact trimStart_cons_fix c (v' ++ tw) hc)]
    exact trimEnd_pad (c :: v') tw htw hv2

theorem takeWhile_append_stop (xs ys : Str) (h : ∃ c ∈ xs, isJsWs c = false) :
    (xs ++ ys).takeWhile isJsWs = xs.takeWhile isJsWs := by
  rw [List.takeWhile_append]
  split
  · rename_i hlen
    exfalso
    have heq : xs.takeWhile isJsWs = xs := (List.takeWhile_prefix isJsWs).eq_of_length hlen
    obtain ⟨c, hc, hw⟩ := h
    have hmem : c ∈ xs.takeWhile isJsWs := by rw [heq]; exact hc
    have := List.mem_takeWhile_imp hmem
    rw [this] at hw
    exact absurd hw (by simp)
  · rfl

theorem trim_decomposition (s : Str) (h : jsTrim s ≠ []) :
    s = leadingWs s ++ jsTrim s ++ trailingWs s := by
  have h1 : trimStart s ≠ [] := by
    intro hcon
    apply h
    unfold jsTrim
    rw [hcon]
    rfl
  obtain ⟨c, rest, hc, hw⟩ := trimStart_cons_head s h1
  have h2 : trailingWs s = ((trimStart s).reverse.takeWhile isJsWs).reverse := by
    unfold trailingWs
    congr 1
    conv_lhs => rw [leadingWs_append_trimStart s]
    rw [List.reverse_append]
    apply takeWhile_append_stop
    exact ⟨c, by rw [List.mem_reverse, hc]; simp, hw⟩
  have h3 : trimStart s = jsTrim s ++ ((trimStart s).reverse.takeWhile isJsWs).reverse :=
    trimEnd_append_trailingWs (trimStart s)
  conv_lhs => rw [leadingWs_append_trimStart s]
  rw [h3, h2]
  rw [List.append_assoc]

theorem jsTrim_nil_all_ws (r : Str) (h : jsTrim r = []) : ∀ c ∈ r, isJsWs c = true := by
  have h1 : ∀ c ∈ trimStart r, isJsWs c = true := by
    have h2 : (trimStart r).reverse.dropWhile isJsWs = [] := by
      simpa [jsTrim, trimEnd] using h
    intro c hc
    exact List.dropWhile_eq_nil_iff.mp h2 c (List.mem_reverse.mpr hc)
  intro c hc
  rw [leadingWs_append_trimStart r] at hc
  rcases List.mem_append.mp hc with hc | hc
  · exact all_ws_leadingWs r c hc
  · exact h1 c hc

theorem csvRewriteRow_blank (reps : List (Str × Str)) (i : Nat) (r : Str)
    (h : jsTrim r = []) : csvRewriteRow reps i r = (false, r) := by
  unfold csvRewriteRow
  rw [if_pos (Or.inr h)]

theorem csvRewriteRow_noComma (reps : List (Str × Str)) (i : Nat) (r : Str)
    (h : r.findIdx? (fun c => c = ',') = none) : csvRewriteRow reps i r = (false, r) := by
  rcases csvRewriteRow_cases reps i r with hc | ⟨_, _, ci, name, hci, _, _, _, _⟩
  · exact hc
  · rw [h] at hci
    exact absurd hci (by simp)

theorem findIdx_comma_trim (r : Str) (ci : Nat)
    (hci : r.findIdx? (fun c => c = ',') = some ci) : jsTrim r ≠ [] := by
  intro hcon
  obtain ⟨hlt, hp, _⟩ := List.findIdx?_eq_some_iff_getElem.mp hci
  have hcomma : r.get ⟨ci, hlt⟩ = ',' := by
    have := hp
    simp only [decide_eq_true_eq] at this
    simpa [List.get_eq_getElem] using this
  have hmem : (',' : Char) ∈ r := by
    rw [← hcomma]
    exact List.get_mem r ci hlt
  have := jsTrim_nil_all_ws r hcon ',' hmem
  simp [isJsWs] at this

theorem csvRewriteRow_noHit (reps : List (Str × Str)) (i : Nat) (r : Str) (ci : Nat)
    (hci : r.findIdx? (fun c => c = ',') = some ci)
    (h : mapGet reps (jsTrim (r.take ci)) = none) :
    csvRewriteRow reps i r = (false, r) := by
  rcases csvRewriteRow_cases reps i r with hc | ⟨_, _, ci', name, hci', hname, _, _, _⟩
  · exact hc
  · rw [hci] at hci'
    rw [Option.some.injEq] at hci'
    rw [← hci', h] at hname
    exact absurd hname (by simp)

theorem csvRewriteRow_hit (reps : List (Str × Str)) (i : Nat) (r : Str) (ci : Nat)
    (name : Str) (hi : i ≠ 0)
    (hci : r.findIdx? (fun c => c = ',') = some ci)
    (hname : mapGet reps (jsTrim (r.take ci)) = some name)
    (h1 : name ≠ []) (h2 : name ≠ jsTrim (r.take ci)) :
    csvRewriteRow reps i r =
      (true, leadingWs (r.take ci) ++ name ++ trailingWs (r.take ci) ++ r.drop ci) := by
  unfold csvRewriteRow
  rw [if_neg (by
    rintro (hc | hc)
    · exact hi hc
    · exact findIdx_comma_trim r ci hci hc)]
  dsimp only
  rw [hci]
  dsimp only
  rw [hname]
  dsimp only
  rw [if_neg (by rintro (hc | hc); exacts [h1 hc, h2 hc])]

theorem get?_enumFrom_map {α β : Type} (g : Nat × α → β) :
    ∀ (l : List α) (n i : Nat),
      ((List.enumFrom n l).map g).get? i = (l.get? i).map (fun a => g (n + i, a)) := by
  intro l
  induction l with
  | nil => intros; rfl
  | cons a l' ih =>
    intro n i
    rcases i with _ | i
    · simp [List.enumFrom]
    · simp only [List.enumFrom, List.map_cons]
      rw [List.get?_cons_succ, List.get?_cons_succ, ih (n + 1) i,
        show n + 1 + i = n + (i + 1) from by omega]

theorem get?_enum_map {α β : Type} (g : Nat × α → β) (l : List α) (i : Nat) :
    ((l.enum.map g)).get? i = (l.get? i).map (fun a => g (i, a)) := by
  rw [List.enum, get?_enumFrom_map g l 0 i]
  simp

theorem csv_updated_shape (reps : List (Str × Str)) (r0 : Str) (rest : List Str) :
    (r0 :: rest).enum.map (fun e => (csvRewriteRow reps e.1 e.2).2) =
      r0 :: rest.map (fun r => (csvRewriteRow reps 1 r).2) := by
  have h := congrArg (List.map (fun p : Bool × Str => p.2)) (csv_results_shape reps r0 rest)
  simpa [List.map_map, Function.comp] using h

theorem mapGet_mem_kv (m : List (Str × Str)) (k v : Str) (h : mapGet m k = some v) :
    ∃ e ∈ m, e.1 = k ∧ e.2 = v := by
  simp only [mapGet, Option.map_eq_some'] at h
  obtain ⟨e, he, hv⟩ := h
  refine ⟨e, List.mem_of_find?_eq_some he, ?_, hv⟩
  have h2 := List.find?_some he
  simpa using h2

/-- C6: the CSV rewriter leaves the file untouched when no row changes; when
some row changes, the output has the same number of rows, row 0 (the header)
is unchanged, every other row is unchanged when blank, comma-free, or when
the trimmed text before its first comma is not a key of the map, and when
that trimmed text is a key with display name `name` the row becomes the
field's leading whitespace, then `name`, then its trailing whitespace, then
the rest of the row from the comma on — the raw field decomposing as leading
whitespace ++ trimmed value ++ trailing whitespace, so exactly the trimmed
value is replaced; an LF-only file stays LF-only (no `\r` appears), a
CRLF-only file stays CRLF-only, and the output ends in a newline iff the
input did.  The map is well formed as `exportReplacements` builds it:
nonempty labels, nonempty display names differing from their label, no
newline characters in display names. -/
theorem applySpeakerNamesToCsv_spec (content : Str) (reps : List (Str × Str))
    (hwf : ∀ e ∈ reps, e.1 ≠ [] ∧ e.2 ≠ [] ∧ e.2 ≠ e.1 ∧ '\n' ∉ e.2 ∧ '\r' ∉ e.2) :
    ((applySpeakerNamesToCsv (some content) reps).1 = false →
      applySpeakerNamesToCsv (some content) reps = (false, some content)) ∧
    (∀ o, applySpeakerNamesToCsv (some content) reps = (true, some o) →
      (splitRN o).length = (splitRN content).length ∧
      (splitRN o).get? 0 = (splitRN content).get? 0 ∧
      (∀ i r, (splitRN content).get? (i + 1) = some r →
        ((jsTrim r = [] ∨ r.findIdx? (fun c => c = ',') = none ∨
            (∃ ci, r.findIdx? (fun c => c = ',') = some ci ∧
              mapGet reps (jsTrim (r.take ci)) = none)) →
          (splitRN o).get? (i + 1) = some r) ∧
        (∀ ci name, r.findIdx? (fun c => c = ',') = some ci →
            mapGet reps (jsTrim (r.take ci)) = some name →
          (splitRN o).get? (i + 1) =
            some (leadingWs (r.take ci) ++ name ++ trailingWs (r.take ci) ++
              r.drop ci) ∧
          r.take ci =
            leadingWs (r.take ci) ++ jsTrim (r.take ci) ++ trailingWs (r.take ci))) ∧
      ('\r' ∉ content → '\r' ∉ o) ∧
      (crlfOnly content = true → crlfOnly o = true) ∧
      (o.getLast? = some '\n' ↔ content.getLast? = some '\n')) := by
  constructor
  · intro hfl
    unfold applySpeakerNamesToCsv at hfl ⊢
    dsimp only at hfl ⊢
    split at hfl
    · rename_i hc
      rw [if_pos hc]
    · simp at hfl
  · intro o h
    have hvals : ∀ e ∈ reps, '\n' ∉ e.2 := fun e he => (hwf e he).2.2.2.1
    have hvalsR : ∀ e ∈ reps, '\r' ∉ e.2 := fun e he => (hwf e he).2.2.2.2
    obtain ⟨hlen1, ho⟩ := csv_apply_changed_eq content reps o hvals h
    rcases hrows : splitRN content with _ | ⟨r0, rest⟩
    · exact absurd hrows (splitRN_ne_nil content)
    rw [hrows] at ho
    have hrest : rest ≠ [] := by
      rcases rest with _ | _
      · rw [hrows] at hlen1
        simp at hlen1
      · simp
    rw [csv_updated_shape] at ho
    set nl := if containsSub content (toStr "\r\n") = true then toStr "\r\n"
      else toStr "\n" with hnl
    have hr0nf : '\n' ∉ r0 := splitRN_no_lf content r0 (by rw [hrows]; simp)
    have hrestnf : ∀ r ∈ rest, '\n' ∉ r := fun r hr =>
      splitRN_no_lf content r (by rw [hrows]; simp [hr])
    have hnf : ∀ r ∈ r0 :: rest.map (fun r => (csvRewriteRow reps 1 r).2), '\n' ∉ r := by
      intro r hr
      rcases List.mem_cons.mp hr with rfl | hr
      · exact hr0nf
      · obtain ⟨x, hx, rfl⟩ := List.mem_map.mp hr
        exact csvRewriteRow_not_mem reps 1 x '\n' (hrestnf x hx) hvals
    have hsplit : splitRN o = r0 :: rest.map (fun r => (csvRewriteRow reps 1 r).2) := by
      rcases hcs : containsSub content (toStr "\r\n") with _ | _
      · have hnleq : nl = toStr "\n" := by rw [hnl, hcs]; rfl
        rw [ho, hnleq]
        refine splitRN_joinSep_lf _ (by simp) ?_
        have hjc : JoinableLF (r0 :: rest) := by
          rw [← hrows]
          exact noCrlf_joinable content hcs
        rw [JoinableLF_cons_iff] at hjc
        rcases hjc.2 with hnil | ⟨hcr, hjr⟩
        · exact absurd hnil hrest
        · rw [JoinableLF_cons_iff]
          refine ⟨hr0nf, Or.inr ⟨hcr, ?_⟩⟩
          exact JoinableLF_map_transfer _ (fun r => csvRewriteRow_getLast reps 1 r) rest
            hjr (fun r hr => csvRewriteRow_not_mem reps 1 r '\n' (hrestnf r hr) hvals)
      · have hnleq : nl = toStr "\r\n" := by rw [hnl, hcs]; rfl
        rw [ho, hnleq]
        exact splitRN_joinSep_crlf _ (by simp) hnf
    have hbridge : ∀ i r, rest.get? i = some r →
        (splitRN o).get? (i + 1) = some ((csvRewriteRow reps 1 r).2) := by
      intro i r hir
      rw [hsplit, List.get?_cons_succ, List.get?_map, hir]
      rfl
    refine ⟨?_, ?_, ?_, ?_, ?_, ?_⟩
    · rw [hsplit]
      simp
    · rw [hsplit]
      rfl
    · intro i r hir
      rw [List.get?_cons_succ] at hir
      constructor
      · rintro (hb | hb | ⟨ci, hci, hnone⟩)
        · rw [hbridge i r hir, csvRewriteRow_blank reps 1 r hb]
        · rw [hbridge i r hir, csvRewriteRow_noComma reps 1 r hb]
        · rw [hbridge i r hir, csvRewriteRow_noHit reps 1 r ci hci hnone]
      · intro ci name hci hname
        obtain ⟨e, he, hek, hev⟩ := mapGet_mem_kv reps _ name hname
        have hne : name ≠ [] := by
          rw [← hev]
          exact (hwf e he).2.1
        have hnt : name ≠ jsTrim (r.take ci) := by
          rw [← hev, ← hek]
          exact (hwf e he).2.2.1
        have hkne : jsTrim (r.take ci) ≠ [] := by
          rw [← hek]
          exact (hwf e he).1
        refine ⟨?_, trim_decomposition _ hkne⟩
        rw [hbridge i r hir,
          csvRewriteRow_hit reps 1 r ci name (by omega) hci hname hne hnt]
    · intro hrc
      have hcs : containsSub content (toStr "\r\n") = false := by
        rcases hb : containsSub content (toStr "\r\n") with _ | _
        · rfl
        · have h2 := containsSub_chars content _ hb '\r' (by
            rw [show toStr "\r\n" = ['\r', '\n'] from by decide]
            simp)
          exact absurd h2 hrc
      have hnleq : nl = toStr "\n" := by rw [hnl, hcs]; rfl
      intro hmem
      rw [ho, hnleq] at hmem
      have hcontent : ∀ c ∈ content, c ∈ content := fun _ hc => hc
      rcases joinSep_chars _ _ _ hmem with hsep | ⟨p, hp, hcp⟩
      · rw [show toStr "\n" = ['\n'] from by decide] at hsep
        simp at hsep
      · rcases List.mem_cons.mp hp with rfl | hp2
        · exact hrc (splitRN_chars content p (by rw [hrows]; simp) '\r' hcp)
        · obtain ⟨x, hx, rfl⟩ := List.mem_map.mp hp2
          exact csvRewriteRow_not_mem reps 1 x '\r'
            (fun hm => hrc (splitRN_chars content x (by rw [hrows]; simp [hx]) '\r' hm))
            hvalsR hcp
    · intro hco
      have hlfmem : '\n' ∈ content := lf_mem_of_two_rows content hlen1
      have hcs : containsSub content (toStr "\r\n") = true :=
        crlfOnly_contains content hco hlfmem
      have hnleq : nl = toStr "\r\n" := by rw [hnl, hcs]; rfl
      rw [ho, hnleq]
      exact crlfOnly_join _ hnf
    · have hcne : content ≠ [] := by
        intro hcon
        rw [hcon] at hrows
        rw [show splitRN ([] : Str) = [[]] from rfl] at hrows
        rw [List.cons.injEq] at hrows
        exact hrest hrows.2.symm
      have hone : o ≠ [] := by
        intro hcon
        rw [hcon] at hsplit
        rw [show splitRN ([] : Str) = [[]] from rfl] at hsplit
        rw [List.cons.injEq] at hsplit
        exact hrest (by simpa using hsplit.2.symm)
      rw [← splitRN_getLast_nil_iff o hone, ← splitRN_getLast_nil_iff content hcne]
      rw [hsplit, hrows]
      obtain ⟨lp, hlp⟩ : ∃ lp, rest.getLast? = some lp := by
        rcases hopt : rest.getLast? with _ | lp
        · rw [List.getLast?_eq_none_iff] at hopt
          exact absurd hopt hrest
        · exact ⟨lp, rfl⟩
      rw [getLast?_cons_of_ne r0 rest hrest,
        getLast?_cons_of_ne r0 _ (by simpa using hrest),
        List.getLast?_map, hlp]
      simp only [Option.map_some', Option.some.injEq]
      exact csvRewriteRow_nil_iff reps 1 lp

theorem applySpeakerNamesToCsv_spec_w :
    (splitRN (toStr "speaker,start,end,text\nAlice, 0,1200,hello")).length = 2 := by
  have h := applySpeakerNamesToCsv_spec
    (toStr "speaker,start,end,text\nSpeaker 1, 0,1200,hello")
    [(toStr "Speaker 1", toStr "Alice")] (by decide)
  have h2 := (h.2 (toStr "speaker,start,end,text\nAlice, 0,1200,hello") (by decide)).1
  rw [h2]
  decide

theorem cueAt_nil (label : Str) : cueAt label [] = false := by
  cases label <;> rfl

theorem replaceLabelPass_id (label disp : Str) :
    ∀ (s : Str) (b : Bool), hasCue label b s = false →
      replaceLabelPass label disp b s = s := by
  intro s
  induction s with
  | nil =>
    intro b hb
    have hcond : ¬ (label ≠ [] ∧ b = true ∧ cueAt label [] = true) := by
      rintro ⟨_, _, hcue⟩
      rw [cueAt_nil] at hcue
      exact absurd hcue (by simp)
    rw [replaceLabelPass.eq_def, dif_neg hcond]
  | cons c rest ih =>
    intro b hb
    rw [hasCue, Bool.or_eq_false_iff] at hb
    have hcond : ¬ (label ≠ [] ∧ b = true ∧ cueAt label (c :: rest) = true) := by
      rintro ⟨_, hb', hcue⟩
      rw [hb', hcue] at hb
      exact absurd hb.1 (by simp)
    rw [replaceLabelPass.eq_def, dif_neg hcond]
    dsimp only
    rw [ih (c = '\n') hb.2]

theorem replaceSpeakerPrefixes_id (reps : List (Str × Str)) :
    ∀ s, noCueAll reps s = true → replaceSpeakerPrefixes s reps = s := by
  induction reps with
  | nil => intro s _; rfl
  | cons e rest ih =>
    intro s h
    rw [noCueAll, List.all_cons, Bool.and_eq_true] at h
    have he : hasCue e.1 true s = false := by
      rcases hx : hasCue e.1 true s
      · rfl
      · rw [hx] at h
        exact absurd h.1 (by simp)
    rw [replaceSpeakerPrefixes, List.foldl_cons]
    have hstep : (if e.2 = [] ∨ e.2 = e.1 then s else replaceLabelPass e.1 e.2 true s) = s := by
      split
      · rfl
      · exact replaceLabelPass_id e.1 e.2 s true he
    rw [hstep]
    have h2 := ih s (by rw [noCueAll]; exact h.2)
    rw [replaceSpeakerPrefixes] at h2
    exact h2

theorem applySpeakerNamesToTextFile_idem (fileO : Option Str) (reps : List (Str × Str))
    (hcue : noCueAll reps ((applySpeakerNamesToTextFile fileO reps).2.getD []) = true) :
    applySpeakerNamesToTextFile ((applySpeakerNamesToTextFile fileO reps).2) reps =
      (false, (applySpeakerNamesToTextFile fileO reps).2) := by
  rcases fileO with _ | orig
  · rfl
  · have hshape : ∃ c, (applySpeakerNamesToTextFile (some orig) reps).2 = some c := by
      unfold applySpeakerNamesToTextFile
      dsimp only
      split
      · exact ⟨orig, rfl⟩
      · exact ⟨replaceSpeakerPrefixes orig reps, rfl⟩
    obtain ⟨c, hc⟩ := hshape
    rw [hc] at hcue ⊢
    have hid : replaceSpeakerPrefixes c reps = c :=
      replaceSpeakerPrefixes_id reps c (by simpa using hcue)
    unfold applySpeakerNamesToTextFile
    dsimp only
    rw [hid, if_pos rfl]

/-- C4 (counterexample): export-sync is not idempotent for every speaker
roster.  When one speaker's display name equals another speaker's stable
label (here A is renamed to B while B is renamed to C), the first run
rewrites the CSV speaker field from A to B and the second run rewrites that
same field again from B to C: the second run reports `segments.csv` changed
and the file is not byte-identical. -/
theorem applySpeakerNamesToExports_idem_cx :
    (applySpeakerNamesToExports
        [⟨toStr "s1", toStr "m", toStr "A", toStr "B", toStr "t"⟩,
         ⟨toStr "s2", toStr "m", toStr "B", toStr "C", toStr "t"⟩]
        (applySpeakerNamesToExports
          [⟨toStr "s1", toStr "m", toStr "A", toStr "B", toStr "t"⟩,
           ⟨toStr "s2", toStr "m", toStr "B", toStr "C", toStr "t"⟩]
          ⟨none, none, some (toStr "h\nA,x"), JFile.absent⟩ (toStr "t")).2
        (toStr "t")).1 = [toStr "segments.csv"] ∧
    (applySpeakerNamesToExports
        [⟨toStr "s1", toStr "m", toStr "A", toStr "B", toStr "t"⟩,
         ⟨toStr "s2", toStr "m", toStr "B", toStr "C", toStr "t"⟩]
        (applySpeakerNamesToExports
          [⟨toStr "s1", toStr "m", toStr "A", toStr "B", toStr "t"⟩,
           ⟨toStr "s2", toStr "m", toStr "B", toStr "C", toStr "t"⟩]
          ⟨none, none, some (toStr "h\nA,x"), JFile.absent⟩ (toStr "t")).2
        (toStr "t")).2.csv ≠
      (applySpeakerNamesToExports
          [⟨toStr "s1", toStr "m", toStr "A", toStr "B", toStr "t"⟩,
           ⟨toStr "s2", toStr "m", toStr "B", toStr "C", toStr "t"⟩]
          ⟨none, none, some (toStr "h\nA,x"), JFile.absent⟩ (toStr "t")).2.csv := by
  exact ⟨by decide, by decide⟩

theorem findIdx_comma_append (post : Str) :
    ∀ (pre : Str) (i : Nat), ',' ∉ pre →
      List.findIdx? (fun c => c = ',') (pre ++ ',' :: post) i = some (i + pre.length) := by
  intro pre
  induction pre with
  | nil =>
    intro i _
    rw [List.nil_append, List.findIdx?_cons]
    simp
  | cons c pre' ih =>
    intro i hmem
    have hcne : c ≠ ',' := fun h => hmem (by simp [h])
    rw [List.cons_append, List.findIdx?_cons, if_neg (by simpa using hcne),
      ih (i + 1) (fun h => hmem (by simp [h]))]
    congr 1
    simp only [List.length_cons]
    omega

theorem findIdx_comma_full (pre post : Str) (h : ',' ∉ pre) :
    (pre ++ ',' :: post).findIdx? (fun c => c = ',') = some pre.length := by
  have h2 := findIdx_comma_append post pre 0 h
  simpa using h2

theorem take_findIdx_no_comma (r : Str) (ci : Nat)
    (hci : r.findIdx? (fun c => c = ',') = some ci) : ',' ∉ r.take ci := by
  obtain ⟨hlt, _, hbefore⟩ := List.findIdx?_eq_some_iff_getElem.mp hci
  intro hmem
  obtain ⟨j, hj, hje⟩ := List.mem_iff_getElem.mp hmem
  have hjlt : j < ci := lt_of_lt_of_le hj (by rw [List.length_take]; exact min_le_left _ _)
  apply hbefore j hjlt
  simp only [decide_eq_true_eq]
  rw [← hje]
  exact (List.getElem_take r).symm

theorem drop_comma (r : Str) (ci : Nat) (hci : r.findIdx? (fun c => c = ',') = some ci) :
    r.drop ci = ',' :: r.drop (ci + 1) := by
  obtain ⟨hlt, hp, _⟩ := List.findIdx?_eq_some_iff_getElem.mp hci
  have hcomma : r[ci] = ',' := by simpa using hp
  rw [List.drop_eq_getElem_cons hlt, hcomma]

theorem csvRewriteRow_idem (reps : List (Str × Str)) (r : Str)
    (h1 : ∀ e ∈ reps, mapGet reps e.2 = none)
    (h2 : ∀ e ∈ reps, jsTrim e.2 = e.2 ∧ ',' ∉ e.2) :
    csvRewriteRow reps 1 ((csvRewriteRow reps 1 r).2) =
      (false, (csvRewriteRow reps 1 r).2) := by
  rcases csvRewriteRow_cases reps 1 r with hc | ⟨_, _, ci, name, hci, hname, hn1, hn2, hc⟩
  · rw [hc]
    exact hc
  · rw [hc]
    dsimp only
    obtain ⟨e, he, hek, hev⟩ := mapGet_mem_kv reps _ name hname
    have hnp : ',' ∉ name := by
      rw [← hev]
      exact (h2 e he).2
    have hnfix : jsTrim name = name := by
      rw [← hev]
      exact (h2 e he).1
    have htake : ',' ∉ r.take ci := take_findIdx_no_comma r ci hci
    have hlwc : ',' ∉ leadingWs (r.take ci) := fun hm => htake (List.takeWhile_subset _ hm)
    have htwc : ',' ∉ trailingWs (r.take ci) := by
      intro hm
      have hm1 : ',' ∈ (r.take ci).reverse.takeWhile isJsWs := List.mem_reverse.mp hm
      have hm2 : ',' ∈ (r.take ci).reverse := List.takeWhile_subset _ hm1
      exact htake (List.mem_reverse.mp hm2)
    have hpre : ',' ∉ leadingWs (r.take ci) ++ name ++ trailingWs (r.take ci) := by
      intro hm
      rcases List.mem_append.mp hm with hm | hm
      · rcases List.mem_append.mp hm with hm | hm
        · exact hlwc hm
        · exact hnp hm
      · exact htwc hm
    have hre : leadingWs (r.take ci) ++ name ++ trailingWs (r.take ci) ++ r.drop ci =
        (leadingWs (r.take ci) ++ name ++ trailingWs (r.take ci)) ++
          ',' :: r.drop (ci + 1) := by
      rw [drop_comma r ci hci]
    have hfi : (leadingWs (r.take ci) ++ name ++ trailingWs (r.take ci) ++
        r.drop ci).findIdx? (fun c => c = ',') =
        some (leadingWs (r.take ci) ++ name ++ trailingWs (r.take ci)).length := by
      rw [hre]
      exact findIdx_comma_full _ _ hpre
    have htk : (leadingWs (r.take ci) ++ name ++ trailingWs (r.take ci) ++ r.drop ci).take
        (leadingWs (r.take ci) ++ name ++ trailingWs (r.take ci)).length =
        leadingWs (r.take ci) ++ name ++ trailingWs (r.take ci) := by
      rw [hre]
      exact List.take_left _ _
    have hjt : jsTrim (leadingWs (r.take ci) ++ name ++ trailingWs (r.take ci)) = name :=
      jsTrim_pad _ _ _ (all_ws_leadingWs _) (all_ws_trailingWs _) hnfix
    have hmg : mapGet reps (jsTrim ((leadingWs (r.take ci) ++ name ++
        trailingWs (r.take ci) ++ r.drop ci).take
        (leadingWs (r.take ci) ++ name ++ trailingWs (r.take ci)).length)) = none := by
      rw [htk, hjt, ← hev]
      exact h1 e he
    exact csvRewriteRow_noHit reps 1 _ _ hfi hmg

theorem csv_run_or (content : Str) (reps : List (Str × Str)) :
    applySpeakerNamesToCsv (some content) reps = (false, some content) ∨
    ∃ o, applySpeakerNamesToCsv (some content) reps = (true, some o) := by
  unfold applySpeakerNamesToCsv
  dsimp only
  split
  · exact Or.inl rfl
  · exact Or.inr ⟨_, rfl⟩

theorem csv_changed_split (content : Str) (reps : List (Str × Str)) (o : Str)
    (hvals : ∀ e ∈ reps, '\n' ∉ e.2)
    (h : applySpeakerNamesToCsv (some content) reps = (true, some o)) :
    ∃ r0 rest, splitRN content = r0 :: rest ∧ rest ≠ [] ∧
      splitRN o = r0 :: rest.map (fun r => (csvRewriteRow reps 1 r).2) := by
  obtain ⟨hlen1, ho⟩ := csv_apply_changed_eq content reps o hvals h
  rcases hrows : splitRN content with _ | ⟨r0, rest⟩
  · exact absurd hrows (splitRN_ne_nil content)
  rw [hrows] at ho
  have hrest : rest ≠ [] := by
    rcases rest with _ | _
    · rw [hrows] at hlen1
      simp at hlen1
    · simp
  rw [csv_updated_shape] at ho
  refine ⟨r0, rest, rfl, hrest, ?_⟩
  set nl := if containsSub content (toStr "\r\n") = true then toStr "\r\n"
    else toStr "\n" with hnl
  have hr0nf : '\n' ∉ r0 := splitRN_no_lf content r0 (by rw [hrows]; simp)
  have hrestnf : ∀ r ∈ rest, '\n' ∉ r := fun r hr =>
    splitRN_no_lf content r (by rw [hrows]; simp [hr])
  have hnf : ∀ r ∈ r0 :: rest.map (fun r => (csvRewriteRow reps 1 r).2), '\n' ∉ r := by
    intro r hr
    rcases List.mem_cons.mp hr with rfl | hr
    · exact hr0nf
    · obtain ⟨x, hx, rfl⟩ := List.mem_map.mp hr
      exact csvRewriteRow_not_mem reps 1 x '\n' (hrestnf x hx) hvals
  rcases hcs : containsSub content (toStr "\r\n") with _ | _
  · have hnleq : nl = toStr "\n" := by rw [hnl, hcs]; rfl
    rw [ho, hnleq]
    refine splitRN_joinSep_lf _ (by simp) ?_
    have hjc : JoinableLF (r0 :: rest) := by
      rw [← hrows]
      exact noCrlf_joinable content hcs
    rw [JoinableLF_cons_iff] at hjc
    rcases hjc.2 with hnil | ⟨hcr, hjr⟩
    · exact absurd hnil hrest
    · rw [JoinableLF_cons_iff]
      refine ⟨hr0nf, Or.inr ⟨hcr, ?_⟩⟩
      exact JoinableLF_map_transfer _ (fun r => csvRewriteRow_getLast reps 1 r) rest
        hjr (fun r hr => csvRewriteRow_not_mem reps 1 r '\n' (hrestnf r hr) hvals)
  · have hnleq : nl = toStr "\r\n" := by rw [hnl, hcs]; rfl
    rw [ho, hnleq]
    exact splitRN_joinSep_crlf _ (by simp) hnf

theorem applySpeakerNamesToCsv_idem (fileO : Option Str) (reps : List (Str × Str))
    (h1 : ∀ e ∈ reps, mapGet reps e.2 = none)
    (h2 : ∀ e ∈ reps, jsTrim e.2 = e.2 ∧ ',' ∉ e.2 ∧ '\n' ∉ e.2) :
    applySpeakerNamesToCsv ((applySpeakerNamesToCsv fileO reps).2) reps =
      (false, (applySpeakerNamesToCsv fileO reps).2) := by
  rcases fileO with _ | content
  · rfl
  · rcases csv_run_or content reps with hrun | ⟨o, hrun⟩
    · rw [hrun]
      exact hrun
    · rw [hrun]
      obtain ⟨r0, rest, hrows, hrest, hsplit⟩ :=
        csv_changed_split content reps o (fun e he => (h2 e he).2.2) hrun
      have hanyf : ((splitRN o).enum.map
          (fun e => csvRewriteRow reps e.1 e.2)).any (fun r => r.1) = false := by
        rw [List.any_eq_false]
        intro x hx
        rw [hsplit, csv_results_shape] at hx
        rcases List.mem_cons.mp hx with rfl | hx
        · simp
        · obtain ⟨y, hy, rfl⟩ := List.mem_map.mp hx
          obtain ⟨x0, hx0, rfl⟩ := List.mem_map.mp hy
          rw [csvRewriteRow_idem reps x0 h1
            (fun e he => ⟨(h2 e he).1, (h2 e he).2.1⟩)]
          simp
      unfold applySpeakerNamesToCsv
      dsimp only
      rw [if_pos (by rw [hanyf]; simp)]

theorem truthy_some_ne_nil (o : Option Str) (v : Str) (h : truthy o = some v) : v ≠ [] := by
  rcases o with _ | s
  · simp [truthy] at h
  · simp only [truthy] at h
    split at h
    · exact absurd h (by simp)
    · rename_i hs
      rw [Option.some.injEq] at h
      rw [← h]
      exact hs

theorem truthy_eq_some (o : Option Str) (n : Str) (h : truthy o = some n) : o = some n := by
  rcases o with _ | s
  · simp [truthy] at h
  · simp only [truthy] at h
    split at h
    · exact absurd h (by simp)
    · exact h

theorem truthy_some_eq (v : Str) (h : v ≠ []) : truthy (some v) = some v := by
  simp only [truthy]
  rw [if_neg h]

theorem jsOrStr_some_of_truthy (a b : Option Str) (v : Str) (h : truthy a = some v) :
    jsOrStr a b = some v := by
  unfold jsOrStr
  rw [h]

theorem jsOrStr_some_ne_nil (a b : Option Str) (v : Str) (h : jsOrStr a b = some v) :
    v ≠ [] := by
  unfold jsOrStr at h
  cases ht : truthy a with
  | some w =>
    rw [ht] at h
    dsimp only at h
    rw [Option.some.injEq] at h
    rw [← h]
    exact truthy_some_ne_nil a w ht
  | none =>
    rw [ht] at h
    dsimp only at h
    exact truthy_some_ne_nil b v h

theorem rewriteJSpeaker_fix (reps : List (Str × Str)) (s2 : JSpeaker)
    (h : jsOrStr s2.originalLabel s2.label = none ∨
      ∃ v, truthy s2.originalLabel = some v ∧
        (∀ n, truthy (mapGet reps v) = some n → s2.displayName = some n)) :
    rewriteJSpeaker reps (some s2) = (false, some s2) := by
  unfold rewriteJSpeaker
  dsimp only
  rcases h with h | ⟨v, hv, hn⟩
  · rw [h]
    rfl
  · rw [jsOrStr_some_of_truthy _ s2.label v hv, hv]
    dsimp only
    cases hm : truthy (mapGet reps v) with
    | none => rfl
    | some n =>
      dsimp only
      rw [if_pos (hn n hm)]
      rfl

theorem rewriteJSpeaker_char (reps : List (Str × Str)) (s : JSpeaker) :
    ∃ c s2, rewriteJSpeaker reps (some s) = (c, some s2) ∧
      (jsOrStr s2.originalLabel s2.label = none ∨
       ∃ v, truthy s2.originalLabel = some v ∧
         (∀ n, truthy (mapGet reps v) = some n → s2.displayName = some n)) := by
  unfold rewriteJSpeaker
  dsimp only
  cases hol : jsOrStr s.originalLabel s.label with
  | none => exact ⟨_, _, rfl, Or.inl hol⟩
  | some v =>
    have hvne : v ≠ [] := jsOrStr_some_ne_nil _ _ _ hol
    cases ht : truthy s.originalLabel with
    | none =>
      dsimp only
      cases hm : truthy (mapGet reps v) with
      | none =>
        refine ⟨_, _, rfl, Or.inr ⟨v, truthy_some_eq v hvne, ?_⟩⟩
        intro n hn
        rw [hm] at hn
        cases hn
      | some n =>
        dsimp only
        by_cases hd : s.displayName = some n
        · rw [if_pos hd]
          refine ⟨_, _, rfl, Or.inr ⟨v, truthy_some_eq v hvne, ?_⟩⟩
          intro n' hn'
          rw [hm, Option.some.injEq] at hn'
          rw [← hn']
          exact hd
        · rw [if_neg hd]
          refine ⟨_, _, rfl, Or.inr ⟨v, truthy_some_eq v hvne, ?_⟩⟩
          intro n' hn'
          rw [hm, Option.some.injEq] at hn'
          rw [← hn']
    | some w =>
      have h2 := jsOrStr_some_of_truthy s.originalLabel s.label w ht
      rw [hol, Option.some.injEq] at h2
      subst h2
      dsimp only
      cases hm : truthy (mapGet reps v) with
      | none =>
        refine ⟨_, _, rfl, Or.inr ⟨v, ht, ?_⟩⟩
        intro n hn
        rw [hm] at hn
        cases hn
      | some n =>
        dsimp only
        by_cases hd : s.displayName = some n
        · rw [if_pos hd]
          refine ⟨_, _, rfl, Or.inr ⟨v, ht, ?_⟩⟩
          intro n' hn'
          rw [hm, Option.some.injEq] at hn'
          rw [← hn']
          exact hd
        · rw [if_neg hd]
          refine ⟨_, _, rfl, Or.inr ⟨v, ht, ?_⟩⟩
          intro n' hn'
          rw [hm, Option.some.injEq] at hn'
          rw [← hn']

theorem rewriteJSpeaker_idem (reps : List (Str × Str)) (sp : Option JSpeaker) :
    rewriteJSpeaker reps ((rewriteJSpeaker reps sp).2) =
      (false, (rewriteJSpeaker reps sp).2) := by
  rcases sp with _ | s
  · rfl
  · obtain ⟨c, s2, heq, hch⟩ := rewriteJSpeaker_char reps s
    rw [heq]
    exact rewriteJSpeaker_fix reps s2 hch

theorem rewriteJSegment_fix (reps : List (Str × Str)) (s2 : JSegment)
    (h : jsOrStr s2.originalSpeakerLabel s2.speakerLabel = none ∨
      ∃ v, truthy s2.originalSpeakerLabel = some v ∧
        (∀ n, truthy (mapGet reps v) = some n →
          s2.speakerLabel = some n ∧ s2.speakerDisplayName = some n)) :
    rewriteJSegment reps (some s2) = (false, some s2) := by
  unfold rewriteJSegment
  dsimp only
  rcases h with h | ⟨v, hv, hn⟩
  · rw [h]
    rfl
  · rw [jsOrStr_some_of_truthy _ s2.speakerLabel v hv, hv]
    dsimp only
    cases hm : truthy (mapGet reps v) with
    | none => rfl
    | some n =>
      dsimp only
      rw [if_pos (hn n hm).1]
      dsimp only
      rw [if_pos (hn n hm).2]
      rfl

theorem rewriteJSegment_char (reps : List (Str × Str)) (s : JSegment) :
    ∃ c s2, rewriteJSegment reps (some s) = (c, some s2) ∧
      (jsOrStr s2.originalSpeakerLabel s2.speakerLabel = none ∨
       ∃ v, truthy s2.originalSpeakerLabel = some v ∧
         (∀ n, truthy (mapGet reps v) = some n →
           s2.speakerLabel = some n ∧ s2.speakerDisplayName = some n)) := by
  unfold rewriteJSegment
  dsimp only
  cases hol : jsOrStr s.originalSpeakerLabel s.speakerLabel with
  | none => exact ⟨_, _, rfl, Or.inl hol⟩
  | some v =>
    have hvne : v ≠ [] := jsOrStr_some_ne_nil _ _ _ hol
    cases ht : truthy s.originalSpeakerLabel with
    | none =>
      dsimp only
      cases hm : truthy (mapGet reps v) with
      | none =>
        refine ⟨_, _, rfl, Or.inr ⟨v, truthy_some_eq v hvne, ?_⟩⟩
        intro n hn
        rw [hm] at hn
        cases hn
      | some n =>
        dsimp only
        by_cases hd1 : s.speakerLabel = some n
        · rw [if_pos hd1]
          by_cases hd2 : s.speakerDisplayName = some n
          · rw [if_pos hd2]
            refine ⟨_, _, rfl, Or.inr ⟨v, truthy_some_eq v hvne, ?_⟩⟩
            intro n' hn'
            rw [hm, Option.some.injEq] at hn'
            rw [← hn']
            exact ⟨hd1, hd2⟩
          · rw [if_neg hd2]
            refine ⟨_, _, rfl, Or.inr ⟨v, truthy_some_eq v hvne, ?_⟩⟩
            intro n' hn'
            rw [hm, Option.some.injEq] at hn'
            rw [← hn']
            exact ⟨hd1, rfl⟩
        · rw [if_neg hd1]
          by_cases hd2 : s.speakerDisplayName = some n
          · rw [if_pos hd2]
            refine ⟨_, _, rfl, Or.inr ⟨v, truthy_some_eq v hvne, ?_⟩⟩
            intro n' hn'
            rw [hm, Option.some.injEq] at hn'
            rw [← hn']
            exact ⟨rfl, hd2⟩
          · rw [if_neg hd2]
            refine ⟨_, _, rfl, Or.inr ⟨v, truthy_some_eq v hvne, ?_⟩⟩
            intro n' hn'
            rw [hm, Option.some.injEq] at hn'
            rw [← hn']
            exact ⟨rfl, rfl⟩
    | some w =>
      have h2 := jsOrStr_some_of_truthy s.originalSpeakerLabel s.speakerLabel w ht
      rw [hol, Option.some.injEq] at h2
      subst h2
      dsimp only
      cases hm : truthy (mapGet reps v) with
      | none =>
        refine ⟨_, _, rfl, Or.inr ⟨v, ht, ?_⟩⟩
        intro n hn
        rw [hm] at hn
        cases hn
      | some n =>
        dsimp only
        by_cases hd1 : s.speakerLabel = some n
        · rw [if_pos hd1]
          by_cases hd2 : s.speakerDisplayName = some n
          · rw [if_pos hd2]
            refine ⟨_, _, rfl, Or.inr ⟨v, ht, ?_⟩⟩
            intro n' hn'
            rw [hm, Option.some.injEq] at hn'
            rw [← hn']
            exact ⟨hd1, hd2⟩
          · rw [if_neg hd2]
            refine ⟨_, _, rfl, Or.inr ⟨v, ht, ?_⟩⟩
            intro n' hn'
            rw [hm, Option.some.injEq] at hn'
            rw [← hn']
            exact ⟨hd1, rfl⟩
        · rw [if_neg hd1]
          by_cases hd2 : s.speakerDisplayName = some n
          · rw [if_pos hd2]
            refine ⟨_, _, rfl, Or.inr ⟨v, ht, ?_⟩⟩
            intro n' hn'
            rw [hm, Option.some.injEq] at hn'
            rw [← hn']
            exact ⟨rfl, hd2⟩
          · rw [if_neg hd2]
            refine ⟨_, _, rfl, Or.inr ⟨v, ht, ?_⟩⟩
            intro n' hn'
            rw [hm, Option.some.injEq] at hn'
            rw [← hn']
            exact ⟨rfl, rfl⟩

theorem rewriteJSegment_idem (reps : List (Str × Str)) (sg : Option JSegment) :
    rewriteJSegment reps ((rewriteJSegment reps sg).2) =
      (false, (rewriteJSegment reps sg).2) := by
  rcases sg with _ | s
  · rfl
  · obtain ⟨c, s2, heq, hch⟩ := rewriteJSegment_char reps s
    rw [heq]
    exact rewriteJSegment_fix reps s2 hch

theorem statsEntry_fix_none (reps : List (Str × Str)) (k2 : Str)
    (hB : truthy (mapGet reps k2) = none) :
    rewriteStatsEntry reps k2 none = (false, false, none, k2) := by
  unfold rewriteStatsEntry
  dsimp only
  have hnn : (if k2 = [] then none else truthy (mapGet reps k2)) = (none : Option Str) := by
    split
    · rfl
    · exact hB
  rw [hnn]
  simp

theorem statsEntry_fix_some (reps : List (Str × Str)) (k2 l : Str) (x1 : JStats)
    (hA : truthy x1.originalLabel = some l)
    (hB : truthy (mapGet reps l) = none ∨ truthy (mapGet reps l) = some k2) :
    rewriteStatsEntry reps k2 (some x1) = (false, false, some x1, k2) := by
  unfold rewriteStatsEntry
  dsimp only
  rw [hA]
  dsimp only
  rw [hA]
  dsimp only
  have hlne : l ≠ [] := truthy_some_ne_nil _ _ hA
  rw [if_neg hlne]
  rcases hB with hB | hB
  · rw [hB]
    simp
  · rw [hB]
    simp

theorem rewriteStatsEntry_run (reps : List (Str × Str)) (k : Str) (v : Option JStats)
    (hk : k ≠ []) :
    ∃ c1 mv v1 tk, rewriteStatsEntry reps k v = (c1, mv, v1, tk) ∧
      mv = decide (tk ≠ k) ∧
      ((v1 = none ∧ tk = (truthy (mapGet reps k)).getD k) ∨
       (∃ x1 l, v1 = some x1 ∧ truthy x1.originalLabel = some l ∧
         tk = (truthy (mapGet reps l)).getD k)) := by
  unfold rewriteStatsEntry
  dsimp only
  rcases v with _ | x
  · dsimp only
    rw [if_neg hk]
    exact ⟨_, _, _, _, rfl, rfl, Or.inl ⟨rfl, rfl⟩⟩
  · dsimp only
    cases ht : truthy x.originalLabel with
    | none =>
      dsimp only
      rw [truthy_some_eq k hk]
      dsimp only
      rw [if_neg hk]
      exact ⟨_, _, _, _, rfl, rfl, Or.inr ⟨_, k, rfl, truthy_some_eq k hk, rfl⟩⟩
    | some l =>
      dsimp only
      rw [ht]
      dsimp only
      have hlne : l ≠ [] := truthy_some_ne_nil _ _ ht
      rw [if_neg hlne]
      exact ⟨_, _, _, _, rfl, rfl, Or.inr ⟨x, l, rfl, ht, rfl⟩⟩

theorem statsEntry_target_good (reps : List (Str × Str)) (k : Str) (v : Option JStats)
    (hk : k ≠ []) (h1 : ∀ e ∈ reps, mapGet reps e.2 = none) :
    (rewriteStatsEntry reps ((rewriteStatsEntry reps k v).2.2.2)
      ((rewriteStatsEntry reps k v).2.2.1)).1 = false ∧
    (rewriteStatsEntry reps ((rewriteStatsEntry reps k v).2.2.2)
      ((rewriteStatsEntry reps k v).2.2.1)).2.1 = false := by
  obtain ⟨c1, mv, v1, tk, heq, hmveq, hch⟩ := rewriteStatsEntry_run reps k v hk
  rw [heq]
  dsimp only
  rcases hch with ⟨rfl, htk⟩ | ⟨x1, l, rfl, hA, htk⟩
  · have hBnone : truthy (mapGet reps tk) = none := by
      rcases hm : truthy (mapGet reps k) with _ | n
      · rw [htk, hm]
        exact hm
      · have hmg : mapGet reps k = some n := truthy_eq_some _ _ hm
        obtain ⟨e, he, hev⟩ := mapGet_mem reps k n hmg
        rw [htk, hm]
        show truthy (mapGet reps n) = none
        rw [← hev, h1 e he]
        rfl
    rw [statsEntry_fix_none reps tk hBnone]
    exact ⟨rfl, rfl⟩
  · have hB : truthy (mapGet reps l) = none ∨ truthy (mapGet reps l) = some tk := by
      rcases hm : truthy (mapGet reps l) with _ | n
      · exact Or.inl rfl
      · right
        rw [htk, hm]
        rfl
    rw [statsEntry_fix_some reps tk l x1 hA hB]
    exact ⟨rfl, rfl⟩

theorem statsEntry_recorded_good (reps : List (Str × Str)) (k : Str) (v : Option JStats)
    (hk : k ≠ []) (h2 : ∀ e ∈ reps, e.2 ≠ e.1)
    (hmv : (rewriteStatsEntry reps k v).2.1 = false) :
    (rewriteStatsEntry reps k ((rewriteStatsEntry reps k v).2.2.1)).1 = false ∧
    (rewriteStatsEntry reps k ((rewriteStatsEntry reps k v).2.2.1)).2.1 = false := by
  obtain ⟨c1, mv, v1, tk, heq, hmveq, hch⟩ := rewriteStatsEntry_run reps k v hk
  rw [heq] at hmv ⊢
  dsimp only at hmv ⊢
  have htkk : tk = k := by
    rw [hmveq] at hmv
    simpa using hmv
  rcases hch with ⟨rfl, htk⟩ | ⟨x1, l, rfl, hA, htk⟩
  · have hBnone : truthy (mapGet reps k) = none := by
      rcases hm : truthy (mapGet reps k) with _ | n
      · rfl
      · exfalso
        have hmg : mapGet reps k = some n := truthy_eq_some _ _ hm
        obtain ⟨e, he, hek, hev⟩ := mapGet_mem_kv reps k n hmg
        rw [htk, hm] at htkk
        have hnk : n = k := htkk
        exact (h2 e he) (by rw [hev, hek, hnk])
    rw [statsEntry_fix_none reps k hBnone]
    exact ⟨rfl, rfl⟩
  · have hB : truthy (mapGet reps l) = none ∨ truthy (mapGet reps l) = some k := by
      rcases hm : truthy (mapGet reps l) with _ | n
      · exact Or.inl rfl
      · right
        rw [htk, hm] at htkk
        have hnk : n = k := htkk
        exact congrArg some hnk
    rw [statsEntry_fix_some reps k l x1 hA hB]
    exact ⟨rfl, rfl⟩

theorem objSet_mem {α : Type} (m : List (Str × α)) (k : Str) (v : α) :
    ∀ p ∈ objSet m k v, p ∈ m ∨ p = (k, v) := by
  intro p hp
  unfold objSet at hp
  split at hp
  · obtain ⟨e, he, hpe⟩ := List.mem_map.mp hp
    by_cases hek : e.1 = k
    · rw [if_pos hek] at hpe
      exact Or.inr hpe.symm
    · rw [if_neg hek] at hpe
      exact Or.inl (hpe ▸ he)
  · rcases List.mem_append.mp hp with h | h
    · exact Or.inl h
    · right
      simpa using h

theorem rewriteStats_foldl_flags (reps : List (Str × Str)) :
    ∀ (entries : List (Str × Option JStats))
      (acc : Bool × Bool × List (Str × Option JStats) × List (Str × Option JStats)),
      (∀ p ∈ entries, (rewriteStatsEntry reps p.1 p.2).1 = false ∧
        (rewriteStatsEntry reps p.1 p.2).2.1 = false) →
      acc.1 = false → acc.2.1 = false →
      (List.foldl (fun acc e =>
        let r := rewriteStatsEntry reps e.1 e.2
        (acc.1 || r.1, acc.2.1 || r.2.1,
         acc.2.2.1 ++ [(e.1, r.2.2.1)], objSet acc.2.2.2 r.2.2.2 r.2.2.1))
        acc entries).1 = false ∧
      (List.foldl (fun acc e =>
        let r := rewriteStatsEntry reps e.1 e.2
        (acc.1 || r.1, acc.2.1 || r.2.1,
         acc.2.2.1 ++ [(e.1, r.2.2.1)], objSet acc.2.2.2 r.2.2.2 r.2.2.1))
        acc entries).2.1 = false := by
  intro entries
  induction entries with
  | nil =>
    intro acc _ h1 h2
    exact ⟨h1, h2⟩
  | cons e rest ih =>
    intro acc hg h1 h2
    rw [List.foldl_cons]
    refine ih _ (fun p hp => hg p (by simp [hp])) ?_ ?_
    · dsimp only
      rw [h1, (hg e (by simp)).1]
      rfl
    · dsimp only
      rw [h2, (hg e (by simp)).2]
      rfl

theorem rewriteStats_flags (reps : List (Str × Str)) (entries : List (Str × Option JStats))
    (hgood : ∀ p ∈ entries, (rewriteStatsEntry reps p.1 p.2).1 = false ∧
      (rewriteStatsEntry reps p.1 p.2).2.1 = false) :
    (rewriteStats reps entries).1 = false ∧ (rewriteStats reps entries).2.1 = false :=
  rewriteStats_foldl_flags reps entries (false, false, [], []) hgood rfl rfl

theorem rewriteStats_foldl_members (reps : List (Str × Str)) :
    ∀ (entries : List (Str × Option JStats))
      (acc : Bool × Bool × List (Str × Option JStats) × List (Str × Option JStats)),
      (∀ p ∈ (List.foldl (fun acc e =>
          let r := rewriteStatsEntry reps e.1 e.2
          (acc.1 || r.1, acc.2.1 || r.2.1,
           acc.2.2.1 ++ [(e.1, r.2.2.1)], objSet acc.2.2.2 r.2.2.2 r.2.2.1))
          acc entries).2.2.1,
        p ∈ acc.2.2.1 ∨ ∃ q ∈ entries, p = (q.1, (rewriteStatsEntry reps q.1 q.2).2.2.1)) ∧
      (∀ p ∈ (List.foldl (fun acc e =>
          let r := rewriteStatsEntry reps e.1 e.2
          (acc.1 || r.1, acc.2.1 || r.2.1,
           acc.2.2.1 ++ [(e.1, r.2.2.1)], objSet acc.2.2.2 r.2.2.2 r.2.2.1))
          acc entries).2.2.2,
        p ∈ acc.2.2.2 ∨ ∃ q ∈ entries,
          p = ((rewriteStatsEntry reps q.1 q.2).2.2.2,
            (rewriteStatsEntry reps q.1 q.2).2.2.1)) ∧
      ((List.foldl (fun acc e =>
          let r := rewriteStatsEntry reps e.1 e.2
          (acc.1 || r.1, acc.2.1 || r.2.1,
           acc.2.2.1 ++ [(e.1, r.2.2.1)], objSet acc.2.2.2 r.2.2.2 r.2.2.1))
          acc entries).2.1 = false →
        acc.2.1 = false ∧ ∀ q ∈ entries, (rewriteStatsEntry reps q.1 q.2).2.1 = false) := by
  intro entries
  induction entries with
  | nil =>
    intro acc
    refine ⟨fun p hp => Or.inl hp, fun p hp => Or.inl hp, fun h => ⟨h, ?_⟩⟩
    intro q hq
    exact absurd hq (by simp)
  | cons e rest ih =>
    intro acc
    rw [List.foldl_cons]
    obtain ⟨ih1, ih2, ih3⟩ := ih (let r := rewriteStatsEntry reps e.1 e.2
      (acc.1 || r.1, acc.2.1 || r.2.1,
       acc.2.2.1 ++ [(e.1, r.2.2.1)], objSet acc.2.2.2 r.2.2.2 r.2.2.1))
    refine ⟨?_, ?_, ?_⟩
    · intro p hp
      rcases ih1 p hp with hacc | ⟨q, hq, hpq⟩
      · dsimp only at hacc
        rcases List.mem_append.mp hacc with h | h
        · exact Or.inl h
        · refine Or.inr ⟨e, by simp, ?_⟩
          simpa using h
      · exact Or.inr ⟨q, by simp [hq], hpq⟩
    · intro p hp
      rcases ih2 p hp with hacc | ⟨q, hq, hpq⟩
      · dsimp only at hacc
        rcases objSet_mem _ _ _ p hacc with h | h
        · exact Or.inl h
        · exact Or.inr ⟨e, by simp, h⟩
      · exact Or.inr ⟨q, by simp [hq], hpq⟩
    · intro hfl
      obtain ⟨hstep, hrest⟩ := ih3 hfl
      dsimp only at hstep
      rw [Bool.or_eq_false_iff] at hstep
      refine ⟨hstep.1, ?_⟩
      intro q hq
      rcases List.mem_cons.mp hq with rfl | hq
      · exact hstep.2
      · exact hrest q hq

theorem rewriteStats_members (reps : List (Str × Str)) (entries : List (Str × Option JStats)) :
    (∀ p ∈ (rewriteStats reps entries).2.2.1,
      ∃ q ∈ entries, p = (q.1, (rewriteStatsEntry reps q.1 q.2).2.2.1)) ∧
    (∀ p ∈ (rewriteStats reps entries).2.2.2,
      ∃ q ∈ entries, p = ((rewriteStatsEntry reps q.1 q.2).2.2.2,
        (rewriteStatsEntry reps q.1 q.2).2.2.1)) ∧
    ((rewriteStats reps entries).2.1 = false →
      ∀ q ∈ entries, (rewriteStatsEntry reps q.1 q.2).2.1 = false) := by
  obtain ⟨h1, h2, h3⟩ := rewriteStats_foldl_members reps entries (false, false, [], [])
  refine ⟨?_, ?_, ?_⟩
  · intro p hp
    rcases h1 p hp with habs | h
    · exact absurd habs (by simp)
    · exact h
  · intro p hp
    rcases h2 p hp with habs | h
    · exact absurd habs (by simp)
    · exact h
  · intro hfl
    exact (h3 hfl).2

theorem rewriteStats_second (reps : List (Str × Str)) (st1 : List (Str × Option JStats))
    (h1 : ∀ e ∈ reps, mapGet reps e.2 = none) (h2 : ∀ e ∈ reps, e.2 ≠ e.1)
    (hkeys : ∀ q ∈ st1, q.1 ≠ []) :
    (rewriteStats reps (if (rewriteStats reps st1).2.1 = true
        then (rewriteStats reps st1).2.2.2 else (rewriteStats reps st1).2.2.1)).1 = false ∧
    (rewriteStats reps (if (rewriteStats reps st1).2.1 = true
        then (rewriteStats reps st1).2.2.2 else (rewriteStats reps st1).2.2.1)).2.1 =
      false := by
  split
  · refine rewriteStats_flags reps _ ?_
    intro p hp
    obtain ⟨q, hq, rfl⟩ := (rewriteStats_members reps st1).2.1 p hp
    exact statsEntry_target_good reps q.1 q.2 (hkeys q hq) h1
  · rename_i hmoved
    refine rewriteStats_flags reps _ ?_
    intro p hp
    obtain ⟨q, hq, rfl⟩ := (rewriteStats_members reps st1).1 p hp
    refine statsEntry_recorded_good reps q.1 q.2 (hkeys q hq) h2 ?_
    exact (rewriteStats_members reps st1).2.2 (by simpa using hmoved) q hq

theorem map_any_flag_false {α β : Type} (g : α → Bool × β) (l : List α)
    (h : (l.map g).any (fun r => r.1) = false) : ∀ a ∈ l, (g a).1 = false := by
  intro a ha
  rw [List.any_eq_false] at h
  have h2 := h (g a) (List.mem_map_of_mem g ha)
  simpa using h2

theorem rewriteJSpeaker_idem_flag (reps : List (Str × Str)) (a : Option JSpeaker) :
    (rewriteJSpeaker reps ((rewriteJSpeaker reps a).2)).1 = false := by
  rw [rewriteJSpeaker_idem]

theorem rewriteJSegment_idem_flag (reps : List (Str × Str)) (a : Option JSegment) :
    (rewriteJSegment reps ((rewriteJSegment reps a).2)).1 = false := by
  rw [rewriteJSegment_idem]

theorem second_elements_speaker (reps : List (Str × Str)) (arr1 : List (Option JSpeaker)) :
    ∀ a ∈ (arr1.map (rewriteJSpeaker reps)).map (fun r => r.2),
      (rewriteJSpeaker reps a).1 = false := by
  intro a ha
  obtain ⟨r, hr, rfl⟩ := List.mem_map.mp ha
  obtain ⟨a0, ha0, rfl⟩ := List.mem_map.mp hr
  exact rewriteJSpeaker_idem_flag reps a0

theorem second_elements_segment (reps : List (Str × Str)) (arr2 : List (Option JSegment)) :
    ∀ a ∈ (arr2.map (rewriteJSegment reps)).map (fun r => r.2),
      (rewriteJSegment reps a).1 = false := by
  intro a ha
  obtain ⟨r, hr, rfl⟩ := List.mem_map.mp ha
  obtain ⟨a0, ha0, rfl⟩ := List.mem_map.mp hr
  exact rewriteJSegment_idem_flag reps a0

theorem json_flags (payload : JPayload) (reps : List (Str × Str)) (now : Str)
    (hsp : ∀ arr, payload.speakers = some arr →
      ∀ a ∈ arr, (rewriteJSpeaker reps a).1 = false)
    (hsg : ∀ arr, payload.segments = some arr →
      ∀ a ∈ arr, (rewriteJSegment reps a).1 = false)
    (hst : ∀ st, payload.speakerStats = some st →
      (rewriteStats reps st).1 = false ∧ (rewriteStats reps st).2.1 = false) :
    applySpeakerNamesToJson (.parsed payload) reps now = (false, .parsed payload) := by
  have H1 : ∀ arr, payload.speakers = some arr →
      (arr.map (rewriteJSpeaker reps)).any (fun r => r.1) = false := by
    intro arr harr
    rw [List.any_eq_false]
    intro x hx
    obtain ⟨a, ha, rfl⟩ := List.mem_map.mp hx
    rw [hsp arr harr a ha]
    simp
  have H2 : ∀ arr, payload.segments = some arr →
      (arr.map (rewriteJSegment reps)).any (fun r => r.1) = false := by
    intro arr harr
    rw [List.any_eq_false]
    intro x hx
    obtain ⟨a, ha, rfl⟩ := List.mem_map.mp hx
    rw [hsg arr harr a ha]
    simp
  unfold applySpeakerNamesToJson
  dsimp only
  rcases hspv : payload.speakers with _ | arr1 <;>
    rcases hsgv : payload.segments with _ | arr2 <;>
      rcases hstv : payload.speakerStats with _ | st1 <;>
        dsimp only
  · rw [if_pos (by simp)]
  · rw [(hst st1 hstv).1, (hst st1 hstv).2, if_pos (by simp)]
  · rw [H2 arr2 hsgv, if_pos (by simp)]
  · rw [H2 arr2 hsgv, (hst st1 hstv).1, (hst st1 hstv).2, if_pos (by simp)]
  · rw [H1 arr1 hspv, if_pos (by simp)]
  · rw [H1 arr1 hspv, (hst st1 hstv).1, (hst st1 hstv).2, if_pos (by simp)]
  · rw [H1 arr1 hspv, H2 arr2 hsgv, if_pos (by simp)]
  · rw [H1 arr1 hspv, H2 arr2 hsgv, (hst st1 hstv).1, (hst st1 hstv).2,
      if_pos (by simp)]

theorem json_run_or (payload : JPayload) (reps : List (Str × Str)) (now : Str) :
    ((applySpeakerNamesToJson (.parsed payload) reps now = (false, .parsed payload)) ∧
      (∀ arr, payload.speakers = some arr →
        ∀ a ∈ arr, (rewriteJSpeaker reps a).1 = false) ∧
      (∀ arr, payload.segments = some arr →
        ∀ a ∈ arr, (rewriteJSegment reps a).1 = false) ∧
      (∀ st, payload.speakerStats = some st →
        (rewriteStats reps st).1 = false ∧ (rewriteStats reps st).2.1 = false)) ∨
    applySpeakerNamesToJson (.parsed payload) reps now = (true, .parsed
      { speakers := match payload.speakers with
          | some arr => some ((arr.map (rewriteJSpeaker reps)).map (fun r => r.2))
          | none => none
        segments := match payload.segments with
          | some arr => some ((arr.map (rewriteJSegment reps)).map (fun r => r.2))
          | none => none
        speakerStats := match payload.speakerStats with
          | some st => some (if (rewriteStats reps st).2.1 = true
              then (rewriteStats reps st).2.2.2 else (rewriteStats reps st).2.2.1)
          | none => none
        updatedSpeakerNamesAt := some now }) := by
  unfold applySpeakerNamesToJson
  dsimp only
  rcases hspv : payload.speakers with _ | arr1 <;>
    rcases hsgv : payload.segments with _ | arr2 <;>
      rcases hstv : payload.speakerStats with _ | st1 <;>
        dsimp only
  · split
    · refine Or.inl ⟨rfl, ?_, ?_, ?_⟩
      · intro arr harr
        simp at harr
      · intro arr harr
        simp at harr
      · intro st hst
        simp at hst
    · exact Or.inr rfl
  · split
    · rename_i hcond
      refine Or.inl ⟨rfl, ?_, ?_, ?_⟩
      · intro arr harr
        simp at harr
      · intro arr harr
        simp at harr
      · intro st hst
        rw [Option.some.injEq] at hst
        subst hst
        constructor
        · rcases hb : (rewriteStats reps st1).1
          · rfl
          · exfalso
            apply hcond
            rw [hb]
            simp
        · rcases hb : (rewriteStats reps st1).2.1
          · rfl
          · exfalso
            apply hcond
            rw [hb]
            simp
    · exact Or.inr rfl
  · split
    · rename_i hcond
      refine Or.inl ⟨rfl, ?_, ?_, ?_⟩
      · intro arr harr
        simp at harr
      · intro arr harr
        rw [Option.some.injEq] at harr
        subst harr
        refine map_any_flag_false _ _ ?_
        rcases hb : (arr2.map (rewriteJSegment reps)).any (fun r => r.1)
        · rfl
        · exfalso
          apply hcond
          rw [hb]
          simp
      · intro st hst
        simp at hst
    · exact Or.inr rfl
  · split
    · rename_i hcond
      refine Or.inl ⟨rfl, ?_, ?_, ?_⟩
      · intro arr harr
        simp at harr
      · intro arr harr
        rw [Option.some.injEq] at harr
        subst harr
        refine map_any_flag_false _ _ ?_
        rcases hb : (arr2.map (rewriteJSegment reps)).any (fun r => r.1)
        · rfl
        · exfalso
          apply hcond
          rw [hb]
          simp
      · intro st hst
        rw [Option.some.injEq] at hst
        subst hst
        constructor
        · rcases hb : (rewriteStats reps st1).1
          · rfl
          · exfalso
            apply hcond
            rw [hb]
            simp
        · rcases hb : (rewriteStats reps st1).2.1
          · rfl
          · exfalso
            apply hcond
            rw [hb]
            simp
    · exact Or.inr rfl
  · split
    · rename_i hcond
      refine Or.inl ⟨rfl, ?_, ?_, ?_⟩
      · intro arr harr
        rw [Option.some.injEq] at harr
        subst harr
        refine map_any_flag_false _ _ ?_
        rcases hb : (arr1.map (rewriteJSpeaker reps)).any (fun r => r.1)
        · rfl
        · exfalso
          apply hcond
          rw [hb]
          simp
      · intro arr harr
        simp at harr
      · intro st hst
        simp at hst
    · exact Or.inr rfl
  · split
    · rename_i hcond
      refine Or.inl ⟨rfl, ?_, ?_, ?_⟩
      · intro arr harr
        rw [Option.some.injEq] at harr
        subst harr
        refine map_any_flag_false _ _ ?_
        rcases hb : (arr1.map (rewriteJSpeaker reps)).any (fun r => r.1)
        · rfl
        · exfalso
          apply hcond
          rw [hb]
          simp
      · intro arr harr
        simp at harr
      · intro st hst
        rw [Option.some.injEq] at hst
        subst hst
        constructor
        · rcases hb : (rewriteStats reps st1).1
          · rfl
          · exfalso
            apply hcond
            rw [hb]
            simp
        · rcases hb : (rewriteStats reps st1).2.1
          · rfl
          · exfalso
            apply hcond
            rw [hb]
            simp
    · exact Or.inr rfl
  · split
    · rename_i hcond
      refine Or.inl ⟨rfl, ?_, ?_, ?_⟩
      · intro arr harr
        rw [Option.some.injEq] at harr
        subst harr
        refine map_any_flag_false _ _ ?_
        rcases hb : (arr1.map (rewriteJSpeaker reps)).any (fun r => r.1)
        · rfl
        · exfalso
          apply hcond
          rw [hb]
          simp
      · intro arr harr
        rw [Option.some.injEq] at harr
        subst harr
        refine map_any_flag_false _ _ ?_
        rcases hb : (arr2.map (rewriteJSegment reps)).any (fun r => r.1)
        · rfl
        · exfalso
          apply hcond
          rw [hb]
          simp
      · intro st hst
        simp at hst
    · exact Or.inr rfl
  · split
    · rename_i hcond
      refine Or.inl ⟨rfl, ?_, ?_, ?_⟩
      · intro arr harr
        rw [Option.some.injEq] at harr
        subst harr
        refine map_any_flag_false _ _ ?_
        rcases hb : (arr1.map (rewriteJSpeaker reps)).any (fun r => r.1)
        · rfl
        · exfalso
          apply hcond
          rw [hb]
          simp
      · intro arr harr
        rw [Option.some.injEq] at harr
        subst harr
        refine map_any_flag_false _ _ ?_
        rcases hb : (arr2.map (rewriteJSegment reps)).any (fun r => r.1)
        · rfl
        · exfalso
          apply hcond
          rw [hb]
          simp
      · intro st hst
        rw [Option.some.injEq] at hst
        subst hst
        constructor
        · rcases hb : (rewriteStats reps st1).1
          · rfl
          · exfalso
            apply hcond
            rw [hb]
            simp
        · rcases hb : (rewriteStats reps st1).2.1
          · rfl
          · exfalso
            apply hcond
            rw [hb]
            simp
    · exact Or.inr rfl

theorem applySpeakerNamesToJson_idem (file : JFile) (reps : List (Str × Str))
    (now now2 : Str)
    (h1 : ∀ e ∈ reps, mapGet reps e.2 = none)
    (h2 : ∀ e ∈ reps, e.2 ≠ e.1)
    (hkeys : ∀ p st, file = JFile.parsed p → p.speakerStats = some st →
      ∀ q ∈ st, q.1 ≠ []) :
    applySpeakerNamesToJson ((applySpeakerNamesToJson file reps now).2) reps now2 =
      (false, (applySpeakerNamesToJson file reps now).2) := by
  cases file with
  | absent => rfl
  | unparseable => rfl
  | parsed payload =>
    have hkeys' : ∀ st, payload.speakerStats = some st → ∀ q ∈ st, q.1 ≠ [] := by
      intro st hst q hq
      exact hkeys payload st rfl hst q hq
    rcases json_run_or payload reps now with ⟨hrun, hA, hB, hC⟩ | hrun
    · rw [hrun]
      exact json_flags payload reps now2 hA hB hC
    · rw [hrun]
      refine json_flags _ reps now2 ?_ ?_ ?_
      · intro arr harr
        dsimp only at harr
        rcases hspv : payload.speakers with _ | arr1
        · rw [hspv] at harr
          simp at harr
        · rw [hspv] at harr
          dsimp only at harr
          rw [Option.some.injEq] at harr
          subst harr
          exact second_elements_speaker reps arr1
      · intro arr harr
        dsimp only at harr
        rcases hsgv : payload.segments with _ | arr2
        · rw [hsgv] at harr
          simp at harr
        · rw [hsgv] at harr
          dsimp only at harr
          rw [Option.some.injEq] at harr
          subst harr
          exact second_elements_segment reps arr2
      · intro st hst
        dsimp only at hst
        rcases hstv : payload.speakerStats with _ | st1
        · rw [hstv] at hst
          simp at hst
        · rw [hstv] at hst
          dsimp only at hst
          rw [Option.some.injEq] at hst
          subst hst
          exact rewriteStats_second reps st1 h1 h2 (hkeys' st1 hstv)

/-- C4 (amended): export-sync is idempotent for the replacement maps the
system intends: when every stable label is free of regex metacharacters
(`plainLabel` — the regime in which the unescaped pattern built by
`replaceSpeakerPrefixes` matches the label literally, so `replaceLabelPass`
models it; `escapeRegExp` escapes nothing, see C3), no display name is
itself a stable label of the map, display names are trimmed, differ from
their label, and contain no comma or line feed, the first rewrite leaves no
label cue in the text and subtitle exports, and the structured stats keys
are nonempty, then a second run with the same speakers reports no file
changed and leaves every export file byte-identical. -/
theorem applySpeakerNamesToExports_idem (speakers : List SpeakerRow)
    (files : ExportFiles) (now now2 : Str)
    (hplain : ∀ e ∈ exportReplacements speakers, plainLabel e.1 = true)
    (h1 : ∀ e ∈ exportReplacements speakers,
      mapGet (exportReplacements speakers) e.2 = none)
    (h2 : ∀ e ∈ exportReplacements speakers,
      jsTrim e.2 = e.2 ∧ e.2 ≠ e.1 ∧ ',' ∉ e.2 ∧ '\n' ∉ e.2)
    (hct : noCueAll (exportReplacements speakers)
      ((applySpeakerNamesToTextFile files.transcript
        (exportReplacements speakers)).2.getD []) = true)
    (hcs : noCueAll (exportReplacements speakers)
      ((applySpeakerNamesToTextFile files.srt
        (exportReplacements speakers)).2.getD []) = true)
    (hkeys : ∀ p st, files.json = JFile.parsed p → p.speakerStats = some st →
      ∀ q ∈ st, q.1 ≠ []) :
    applySpeakerNamesToExports speakers
        ((applySpeakerNamesToExports speakers files now).2) now2 =
      ([], (applySpeakerNamesToExports speakers files now).2) := by
  unfold applySpeakerNamesToExports
  dsimp only
  by_cases hn : speakers.length = 0
  · simp only [if_pos hn]
  · simp only [if_neg hn]
    by_cases hr : (exportReplacements speakers).length = 0
    · simp only [if_pos hr]
    · simp only [if_neg hr]
      rw [applySpeakerNamesToTextFile_idem files.transcript _ hct,
        applySpeakerNamesToTextFile_idem files.srt _ hcs,
        applySpeakerNamesToCsv_idem files.csv _ h1
          (fun e he => ⟨(h2 e he).1, (h2 e he).2.2.1, (h2 e he).2.2.2⟩),
        applySpeakerNamesToJson_idem files.json _ now now2 h1
          (fun e he => (h2 e he).2.1) hkeys]
      simp

theorem applySpeakerNamesToExports_idem_w :
    (applySpeakerNamesToExports
        [⟨toStr "s1", toStr "m", toStr "Speaker 1", toStr "Alice", toStr "t"⟩]
        (applySpeakerNamesToExports
          [⟨toStr "s1", toStr "m", toStr "Speaker 1", toStr "Alice", toStr "t"⟩]
          ⟨none, none, some (toStr "h\nSpeaker 1,x"),
            JFile.parsed ⟨some [some ⟨some (toStr "Speaker 1"), none, none⟩], none,
              some [(toStr "Speaker 1", some ⟨none⟩)], none⟩⟩ (toStr "t")).2
        (toStr "u")).1 = [] := by
  have h := applySpeakerNamesToExports_idem
    [⟨toStr "s1", toStr "m", toStr "Speaker 1", toStr "Alice", toStr "t"⟩]
    ⟨none, none, some (toStr "h\nSpeaker 1,x"),
      JFile.parsed ⟨some [some ⟨some (toStr "Speaker 1"), none, none⟩], none,
        some [(toStr "Speaker 1", some ⟨none⟩)], none⟩⟩
    (toStr "t") (toStr "u") (by decide) (by decide) (by decide) (by decide) (by decide)
    (by
      intro p st hp hst q hq
      injection hp with hp2
      subst hp2
      dsimp only at hst
      rw [Option.some.injEq] at hst
      subst hst
      simp only [List.mem_singleton] at hq
      subst hq
      decide)
  rw [h]

end MeetingBuddy
